import Mathlib

/-!
Verification of the core of a Redis-style in-memory database server.

The development shallowly embeds the C sources:
* the incremental-rehashing hash table (`dict.c`),
* the keyspace with lazy expiration (`db.c`) and the string commands
  (`t_string.c`),
* transactions with optimistic locking (`multi.c`),
* publish/subscribe fanout (`pubsub.c`),
* the event loop's timer processing (`ae.c`).

Machine integers are modelled as `Nat`/`Int`; `NULL` tables and pointers are
modelled with `[]`/`Option`.  Each C function keeps its source name where Lean
allows it (leading underscores are dropped).
-/

set_option autoImplicit false

namespace RedisDict

/-- Keys are abstract immutable bytestrings; we model them as naturals. -/
abbrev Key := Nat

/-- Stored values (`void *val`), abstracted to naturals. -/
abbrev Val := Nat

/-- A chained bucket: the list of entries (`dictEntry` chain) hanging off one
table slot, in chain order (head of the list = head of the chain). -/
abbrev Bucket := List (Key × Val)

/-- One hash table (`dictht`): the buckets array plus the `used` counter.
`size` is the array length; an empty `table` models a `NULL` (unallocated)
array, exactly as in C where `size = 0` iff `table == NULL`. -/
structure Dictht where
  table : List Bucket
  used : Nat
deriving DecidableEq, Repr

def Dictht.size (ht : Dictht) : Nat := ht.table.length

/-- `sizemask = size - 1`. -/
def Dictht.sizemask (ht : Dictht) : Nat := ht.size - 1

/-- `_dictReset`: both fields zeroed, table unallocated. -/
def dictReset : Dictht := { table := [], used := 0 }

/-- The dictionary (`dict`): two tables, the incremental-rehash progress index
(`-1` when no rehash is in progress) and the count of live safe iterators. -/
structure Dict where
  ht0 : Dictht
  ht1 : Dictht
  rehashidx : Int
  iterators : Nat
deriving DecidableEq, Repr

/-- `dictCreate` followed by `_dictInit`. -/
def dictCreate : Dict :=
  { ht0 := dictReset, ht1 := dictReset, rehashidx := -1, iterators := 0 }

def DICT_OK : Int := 0
def DICT_ERR : Int := 1
def DICT_HT_INITIAL_SIZE : Nat := 4

/-- `dict_force_resize_ratio`: the forced threshold used while a background
save is in progress. -/
def dict_force_resize_ratio : Nat := 5

/-- `LONG_MAX` on a 64-bit platform. -/
def LONG_MAX : Nat := 2 ^ 63 - 1

/-- `dictIsRehashing(d)`: `rehashidx != -1`. -/
def dictIsRehashing (d : Dict) : Prop := d.rehashidx ≠ -1

instance (d : Dict) : Decidable (dictIsRehashing d) := by
  unfold dictIsRehashing; infer_instance

/-- Read bucket `i` of a table; out-of-range reads give the empty chain (the
C code never reads out of range on well-formed states). -/
def tableBucket (t : List Bucket) (i : Nat) : Bucket := t.getD i []

/-- Walk a chain looking for `key` (`key==he->key || dictCompareKeys`). -/
def bucketFind (key : Key) : Bucket → Option (Key × Val)
  | [] => none
  | he :: rest => if he.1 = key then some he else bucketFind key rest

/-- The doubling loop inside `_dictNextPower`: starting from `i`, double until
`i >= size`.  The `i = 0` guard is unreachable from the call site (the loop
starts at `DICT_HT_INITIAL_SIZE = 4`) and only serves termination. -/
def nextPowerLoop (size i : Nat) : Nat :=
  if i = 0 then 0
  else if i ≥ size then i
  else nextPowerLoop size (i * 2)
termination_by size - i
decreasing_by
  rename_i h0 h1
  simp only [not_le] at h1
  omega

/-- `_dictNextPower`: hash table capability is a power of two. -/
def dictNextPower (size : Nat) : Nat :=
  if size ≥ LONG_MAX then LONG_MAX + 1
  else nextPowerLoop size DICT_HT_INITIAL_SIZE

/-- `dictExpand`: expand or create the hash table.  Returns the status and the
updated dictionary (C mutates in place). -/
def dictExpand (d : Dict) (size : Nat) : Int × Dict :=
  if dictIsRehashing d ∨ d.ht0.used > size then (DICT_ERR, d)
  else
    let realsize := dictNextPower size
    if realsize = d.ht0.size then (DICT_ERR, d)
    else
      let n : Dictht := { table := List.replicate realsize [], used := 0 }
      if d.ht0.table = [] then (DICT_OK, { d with ht0 := n })
      else (DICT_OK, { d with ht1 := n, rehashidx := 0 })

/-- `dictResize`: shrink the table to the minimal size holding all elements.
`canResize` is the global `dict_can_resize` flag. -/
def dictResize (canResize : Bool) (d : Dict) : Int × Dict :=
  if ¬canResize ∨ dictIsRehashing d then (DICT_ERR, d)
  else
    let minimal := d.ht0.used
    let minimal := if minimal < DICT_HT_INITIAL_SIZE then DICT_HT_INITIAL_SIZE else minimal
    dictExpand d minimal

section

variable (hash : Key → Nat)

/-- The inner `while(de)` of `dictRehash`: move every entry of a chain from
`ht[0]` to its bucket in `ht[1]` (head insertion), adjusting both `used`
counters one entry at a time as the C code does. -/
def moveChain : Bucket → Dictht → Dictht → Dictht × Dictht
  | [], ht0, ht1 => (ht0, ht1)
  | de :: rest, ht0, ht1 =>
      let h := hash de.1 &&& ht1.sizemask
      moveChain rest
        { ht0 with used := ht0.used - 1 }
        { table := ht1.table.set h (de :: tableBucket ht1.table h),
          used := ht1.used + 1 }

end

/-- The empty-bucket skip loop of `dictRehash`:
`while table[rehashidx] == NULL { rehashidx++; if (--empty_visits == 0) return 1 }`.
`Except.error idx` models the early `return 1` (with the final `rehashidx`),
`Except.ok (idx, ev)` the exit at a non-empty bucket. -/
def rehashSkipEmpty (t : List Bucket) (idx ev : Nat) : Except Nat (Nat × Nat) :=
  if tableBucket t idx = [] then
    if ev - 1 = 0 then Except.error (idx + 1)
    else rehashSkipEmpty t (idx + 1) (ev - 1)
  else Except.ok (idx, ev)
termination_by ev
decreasing_by
  rename_i h0 h1
  omega

/-- The tail of `dictRehash`: when `ht[0]` is drained, free it, move `ht[1]`
down and leave the rehashing state. -/
def rehashFinish (d : Dict) : Bool × Dict :=
  if d.ht0.used = 0 then
    (false, { ht0 := d.ht1, ht1 := dictReset, rehashidx := -1,
              iterators := d.iterators })
  else (true, d)

section

variable (hash : Key → Nat)

/-- The main `while(n-- && ht[0].used != 0)` loop of `dictRehash`, followed by
the finishing check. -/
def rehashLoop : Nat → Nat → Dict → Bool × Dict
  | 0, _, d => rehashFinish d
  | Nat.succ n, ev, d =>
    if d.ht0.used = 0 then rehashFinish d
    else
      match rehashSkipEmpty d.ht0.table d.rehashidx.toNat ev with
      | Except.error idx => (true, { d with rehashidx := (idx : Int) })
      | Except.ok (idx, ev') =>
          let chain := tableBucket d.ht0.table idx
          let p := moveChain hash chain d.ht0 d.ht1
          rehashLoop n ev'
            { d with
              ht0 := { p.1 with table := p.1.table.set idx [] },
              ht1 := p.2,
              rehashidx := (idx : Int) + 1 }

/-- `dictRehash(d, n)`: perform up to `n` bucket-move steps, visiting at most
`n*10` empty buckets.  Returns `true` while keys remain to move. -/
def dictRehash (d : Dict) (n : Nat) : Bool × Dict :=
  if ¬dictIsRehashing d then (false, d)
  else rehashLoop hash n (n * 10) d

/-- `_dictRehashStep`: a single rehash step, suppressed while safe iterators
are live. -/
def dictRehashStep (d : Dict) : Dict :=
  if d.iterators = 0 then (dictRehash hash d 1).2 else d

end

/-- `_dictExpandIfNeeded`: grow policy consulted on every key-index
computation.  `canResize` is the global `dict_can_resize` flag. -/
def dictExpandIfNeeded (canResize : Bool) (d : Dict) : Int × Dict :=
  if dictIsRehashing d then (DICT_OK, d)
  else if d.ht0.size = 0 then dictExpand d DICT_HT_INITIAL_SIZE
  else if d.ht0.used ≥ d.ht0.size ∧
      (canResize ∨ d.ht0.used / d.ht0.size > dict_force_resize_ratio) then
    dictExpand d (d.ht0.used * 2)
  else (DICT_OK, d)

/-- Result of `_dictKeyIndex`: the (possibly expanded) dictionary, the free
slot index (`none` models `-1`), and the `*existing` out-parameter. -/
structure KeyIndexRes where
  d : Dict
  index : Option Nat
  existing : Option (Key × Val)
deriving DecidableEq, Repr

/-- `_dictKeyIndex`: index of the free slot for `key` (in `ht[1]` while
rehashing), or `none` with `existing` filled when the key is already
present; `none` with `existing = none` when the expand policy failed. -/
def dictKeyIndex (hash : Key → Nat) (canResize : Bool) (d : Dict) (key : Key)
    (h : Nat) : KeyIndexRes :=
  let r := dictExpandIfNeeded canResize d
  if r.1 = DICT_ERR then { d := r.2, index := none, existing := none }
  else
    let d := r.2
    let idx0 := h &&& d.ht0.sizemask
    match bucketFind key (tableBucket d.ht0.table idx0) with
    | some he => { d := d, index := none, existing := some he }
    | none =>
      if ¬dictIsRehashing d then { d := d, index := some idx0, existing := none }
      else
        let idx1 := h &&& d.ht1.sizemask
        match bucketFind key (tableBucket d.ht1.table idx1) with
        | some he => { d := d, index := none, existing := some he }
        | none => { d := d, index := some idx1, existing := none }

/-- Result of `dictAddRaw`: the updated dictionary, the freshly inserted
entry (`none` when nothing was added) and the `*existing` out-parameter. -/
structure AddRawRes where
  d : Dict
  entry : Option (Key × Val)
  existing : Option (Key × Val)
deriving DecidableEq, Repr

/-- `dictAddRaw`: low-level add.  Performs one rehash step when rehashing,
then inserts at the head of the target bucket — `ht[1]` while rehashing,
`ht[0]` otherwise.  `val` is the value the caller stores via `dictSetVal`. -/
def dictAddRaw (hash : Key → Nat) (canResize : Bool) (d : Dict) (key : Key)
    (val : Val) : AddRawRes :=
  let d := if dictIsRehashing d then dictRehashStep hash d else d
  let r := dictKeyIndex hash canResize d key (hash key)
  match r.index with
  | none => { d := r.d, entry := none, existing := r.existing }
  | some index =>
      let d := r.d
      if dictIsRehashing d then
        { d := { d with ht1 :=
            { table := d.ht1.table.set index ((key, val) :: tableBucket d.ht1.table index),
              used := d.ht1.used + 1 } },
          entry := some (key, val), existing := r.existing }
      else
        { d := { d with ht0 :=
            { table := d.ht0.table.set index ((key, val) :: tableBucket d.ht0.table index),
              used := d.ht0.used + 1 } },
          entry := some (key, val), existing := r.existing }

/-- `dictAdd`: add an element; fails (leaving the value list unchanged) when
the key is already present. -/
def dictAdd (hash : Key → Nat) (canResize : Bool) (d : Dict) (key : Key)
    (val : Val) : Int × Dict :=
  let r := dictAddRaw hash canResize d key val
  match r.entry with
  | none => (DICT_ERR, r.d)
  | some _ => (DICT_OK, r.d)

/-- Replace the value of the first entry with key `k` in a chain
(`dictSetVal` on the entry `*existing` points at). -/
def bucketSetVal (k : Key) (v : Val) : Bucket → Bucket
  | [] => []
  | he :: rest => if he.1 = k then (he.1, v) :: rest else he :: bucketSetVal k v rest

/-- `dictSetVal` through a pointer into one table: replace the value of the
first `k` entry in the bucket `hash k &&& sizemask`. -/
def htSetVal (hash : Key → Nat) (ht : Dictht) (k : Key) (v : Val) : Dictht :=
  { ht with
    table := ht.table.set (hash k &&& ht.sizemask)
      (bucketSetVal k v (tableBucket ht.table (hash k &&& ht.sizemask))) }

/-- In-place value update of the entry `_dictKeyIndex` reported as existing:
the entry lives in the `ht[0]` bucket of `k`, or failing that in the `ht[1]`
bucket (mirrors a C pointer write through `existing`). -/
def dictSetValExisting (hash : Key → Nat) (d : Dict) (k : Key) (v : Val) : Dict :=
  if (bucketFind k (tableBucket d.ht0.table (hash k &&& d.ht0.sizemask))).isSome then
    { d with ht0 := htSetVal hash d.ht0 k v }
  else
    { d with ht1 := htSetVal hash d.ht1 k v }

/-- `dictReplace`: add, or overwrite the existing value.  Returns `true` when
the key was added from scratch.  (When `dictAddRaw` fails with no existing
entry — impossible unless the expand policy failed — C would dereference a
null pointer; we return the dictionary unchanged.) -/
def dictReplace (hash : Key → Nat) (canResize : Bool) (d : Dict) (key : Key)
    (val : Val) : Bool × Dict :=
  let r := dictAddRaw hash canResize d key val
  match r.entry with
  | some _ => (true, r.d)
  | none =>
    match r.existing with
    | some _ => (false, dictSetValExisting hash r.d key val)
    | none => (false, r.d)

/-- Unlink the first entry with key `k` from a chain. -/
def bucketRemove (k : Key) : Bucket → Bucket
  | [] => []
  | he :: rest => if he.1 = k then rest else he :: bucketRemove k rest

/-- `dictGenericDelete`: search both tables (only `ht[0]` when not rehashing)
and unlink the entry, decrementing `used`.  Returns the unlinked entry.  The
`nofree` flag only controls memory release in C and has no observable effect
here. -/
def dictGenericDelete (hash : Key → Nat) (d : Dict) (key : Key) :
    Option (Key × Val) × Dict :=
  if d.ht0.used = 0 ∧ d.ht1.used = 0 then (none, d)
  else
    let d := if dictIsRehashing d then dictRehashStep hash d else d
    let h := hash key
    let idx0 := h &&& d.ht0.sizemask
    match bucketFind key (tableBucket d.ht0.table idx0) with
    | some he =>
        (some he, { d with ht0 :=
          { table := d.ht0.table.set idx0 (bucketRemove key (tableBucket d.ht0.table idx0)),
            used := d.ht0.used - 1 } })
    | none =>
      if ¬dictIsRehashing d then (none, d)
      else
        let idx1 := h &&& d.ht1.sizemask
        match bucketFind key (tableBucket d.ht1.table idx1) with
        | some he =>
            (some he, { d with ht1 :=
              { table := d.ht1.table.set idx1 (bucketRemove key (tableBucket d.ht1.table idx1)),
                used := d.ht1.used - 1 } })
        | none => (none, d)

/-- `dictDelete`: remove an element, `DICT_OK` on success. -/
def dictDelete (hash : Key → Nat) (d : Dict) (key : Key) : Int × Dict :=
  let r := dictGenericDelete hash d key
  (if r.1.isSome then DICT_OK else DICT_ERR, r.2)

/-- `dictFind`: look the key up in `ht[0]`, and also in `ht[1]` while
rehashing.  Performs one rehash step first (a side effect on the
dictionary, hence the returned `Dict`). -/
def dictFind (hash : Key → Nat) (d : Dict) (key : Key) :
    Dict × Option (Key × Val) :=
  if d.ht0.used + d.ht1.used = 0 then (d, none)
  else
    let d := if dictIsRehashing d then dictRehashStep hash d else d
    let h := hash key
    let idx0 := h &&& d.ht0.sizemask
    match bucketFind key (tableBucket d.ht0.table idx0) with
    | some he => (d, some he)
    | none =>
      if ¬dictIsRehashing d then (d, none)
      else
        let idx1 := h &&& d.ht1.sizemask
        (d, bucketFind key (tableBucket d.ht1.table idx1))

/-- `dictFetchValue`: the value for `key`, or `none`. -/
def dictFetchValue (hash : Key → Nat) (d : Dict) (key : Key) :
    Dict × Option Val :=
  let r := dictFind hash d key
  (r.1, r.2.map Prod.snd)

/-! ### Basic facts about table slots -/

theorem tableBucket_eq_getElem (t : List Bucket) (i : Nat) (h : i < t.length) :
    tableBucket t i = t[i] := by
  simp [tableBucket, List.getD_eq_getElem?_getD, List.getElem?_eq_getElem h]

theorem tableBucket_oob (t : List Bucket) (i : Nat) (h : t.length ≤ i) :
    tableBucket t i = [] := by
  simp [tableBucket, List.getD_eq_getElem?_getD, List.getElem?_eq_none h]

theorem lt_length_of_tableBucket_ne {t : List Bucket} {i : Nat}
    (h : tableBucket t i ≠ []) : i < t.length := by
  by_contra hc
  exact h (tableBucket_oob t i (le_of_not_lt hc))

theorem tableBucket_set_self {t : List Bucket} {i : Nat} (b : Bucket)
    (h : i < t.length) : tableBucket (t.set i b) i = b := by
  simp only [tableBucket, List.getD_eq_getElem?_getD]
  rw [List.getElem?_set_self']
  simp [List.getElem?_eq_getElem h]

theorem tableBucket_set_ne (t : List Bucket) {i j : Nat} (b : Bucket)
    (h : i ≠ j) : tableBucket (t.set i b) j = tableBucket t j := by
  simp only [tableBucket, List.getD_eq_getElem?_getD]
  rw [List.getElem?_set_ne h]

theorem set_tableBucket_self (t : List Bucket) (i : Nat) (h : i < t.length) :
    t.set i (tableBucket t i) = t := by
  rw [tableBucket_eq_getElem t i h]
  apply List.ext_getElem?
  intro j
  rcases eq_or_ne i j with rfl | hne
  · rw [List.getElem?_set_self']
    simp [List.getElem?_eq_getElem h]
  · rw [List.getElem?_set_ne hne]

theorem mem_flatten_of_mem_tableBucket {t : List Bucket} {i : Nat}
    {e : Key × Val} (h : e ∈ tableBucket t i) : e ∈ t.flatten := by
  have hi : i < t.length := lt_length_of_tableBucket_ne (fun hc => by simp [hc] at h)
  rw [tableBucket_eq_getElem t i hi] at h
  exact List.mem_flatten.mpr ⟨t[i], List.getElem_mem hi, h⟩

theorem exists_tableBucket_of_mem_flatten {t : List Bucket} {e : Key × Val}
    (h : e ∈ t.flatten) : ∃ i, i < t.length ∧ e ∈ tableBucket t i := by
  obtain ⟨b, hb, he⟩ := List.mem_flatten.mp h
  obtain ⟨i, hi, rfl⟩ := List.mem_iff_getElem.mp hb
  exact ⟨i, hi, by rwa [tableBucket_eq_getElem t i hi]⟩

theorem table_decomp (t : List Bucket) (i : Nat) (h : i < t.length) :
    t = t.take i ++ tableBucket t i :: t.drop (i + 1) := by
  conv_lhs => rw [← set_tableBucket_self t i h]
  exact List.set_eq_take_cons_drop _ h

theorem flatten_set_perm (t : List Bucket) (i : Nat) (h : i < t.length)
    (b : Bucket) :
    List.Perm (t.set i b).flatten (b ++ (t.set i []).flatten) := by
  rw [List.set_eq_take_cons_drop b h, List.set_eq_take_cons_drop [] h]
  simp only [List.flatten_append, List.flatten_cons, List.flatten_nil,
    List.nil_append, ← List.append_assoc]
  exact (@List.perm_append_comm _ ((t.take i).flatten) b).append_right _

theorem flatten_eq_bucket_append (t : List Bucket) (i : Nat)
    (h : i < t.length) :
    List.Perm t.flatten (tableBucket t i ++ (t.set i []).flatten) := by
  conv_lhs => rw [← set_tableBucket_self t i h]
  exact flatten_set_perm t i h _

theorem flatten_set_cons_perm (t : List Bucket) (i : Nat) (h : i < t.length)
    (e : Key × Val) :
    List.Perm (t.set i (e :: tableBucket t i)).flatten (e :: t.flatten) := by
  refine (flatten_set_perm t i h _).trans ?_
  rw [List.cons_append]
  exact (List.Perm.cons e (flatten_eq_bucket_append t i h)).symm

theorem tableBucket_sublist_flatten (t : List Bucket) (i : Nat) :
    (tableBucket t i).Sublist t.flatten := by
  rcases lt_or_le i t.length with h | h
  · conv_rhs => rw [table_decomp t i h]
    rw [List.flatten_append, List.flatten_cons]
    exact ((tableBucket t i).sublist_append_left _).trans
      (List.sublist_append_right _ _)
  · rw [tableBucket_oob t i h]
    exact List.nil_sublist _

/-! ### Chain search, unlink and in-place value update -/

theorem bucketFind_some {k : Key} {b : Bucket} {e : Key × Val}
    (h : bucketFind k b = some e) : e ∈ b ∧ e.1 = k := by
  induction b with
  | nil => simp [bucketFind] at h
  | cons he rest ih =>
    by_cases hk : he.1 = k
    · simp [bucketFind, hk] at h
      subst h
      exact ⟨List.mem_cons_self .., hk⟩
    · simp [bucketFind, hk] at h
      obtain ⟨hm, hfst⟩ := ih h
      exact ⟨List.mem_cons_of_mem _ hm, hfst⟩

theorem bucketFind_none {k : Key} {b : Bucket} :
    bucketFind k b = none ↔ ∀ e ∈ b, e.1 ≠ k := by
  induction b with
  | nil => simp [bucketFind]
  | cons he rest ih =>
    by_cases hk : he.1 = k
    · simp [bucketFind, hk]
    · simp [bucketFind, hk, ih]

theorem bucketFind_of_mem_nodup {k : Key} {v : Val} {b : Bucket}
    (hnd : (b.map Prod.fst).Nodup) (h : (k, v) ∈ b) :
    bucketFind k b = some (k, v) := by
  induction b with
  | nil => simp at h
  | cons he rest ih =>
    simp only [List.map_cons, List.nodup_cons] at hnd
    rcases List.mem_cons.mp h with rfl | hm
    · simp [bucketFind]
    · have hne : he.1 ≠ k := by
        intro hk
        exact hnd.1 (hk ▸ (List.mem_map.mpr ⟨(k, v), hm, rfl⟩))
      simp [bucketFind, hne]
      exact ih hnd.2 hm

theorem bucketRemove_of_find_none {k : Key} {b : Bucket}
    (h : bucketFind k b = none) : bucketRemove k b = b := by
  induction b with
  | nil => rfl
  | cons he rest ih =>
    by_cases hk : he.1 = k
    · simp [bucketFind, hk] at h
    · simp [bucketFind, hk] at h
      simp [bucketRemove, hk, ih h]

theorem perm_cons_bucketRemove {k : Key} {b : Bucket} {e : Key × Val}
    (h : bucketFind k b = some e) : List.Perm b (e :: bucketRemove k b) := by
  induction b with
  | nil => simp [bucketFind] at h
  | cons he rest ih =>
    by_cases hk : he.1 = k
    · simp [bucketFind, hk] at h
      subst h
      simp [bucketRemove, hk]
    · simp [bucketFind, hk] at h
      simp only [bucketRemove, if_neg hk]
      exact ((ih h).cons he).trans (List.Perm.swap e he _)

theorem perm_cons_bucketSetVal {k : Key} {v : Val} {b : Bucket}
    {e : Key × Val} (h : bucketFind k b = some e) :
    List.Perm (bucketSetVal k v b) ((k, v) :: bucketRemove k b) := by
  induction b with
  | nil => simp [bucketFind] at h
  | cons he rest ih =>
    by_cases hk : he.1 = k
    · simp [bucketFind, hk] at h
      simp [bucketSetVal, bucketRemove, hk]
    · simp [bucketFind, hk] at h
      simp only [bucketSetVal, bucketRemove, if_neg hk]
      exact ((ih h).cons he).trans (List.Perm.swap (k, v) he _)

theorem bucketSetVal_of_find_none {k : Key} (v : Val) {b : Bucket}
    (h : bucketFind k b = none) : bucketSetVal k v b = b := by
  induction b with
  | nil => rfl
  | cons he rest ih =>
    by_cases hk : he.1 = k
    · simp [bucketFind, hk] at h
    · simp [bucketFind, hk] at h
      simp [bucketSetVal, hk, ih h]

/-! ### The well-formedness invariant

`WF` is what the C code maintains on every `dict` between two API calls:
the `used` counters agree with the chains, every entry sits in the bucket its
hash selects, the rehash bookkeeping is consistent (`rehashidx = -1` iff
`ht[1]` is unallocated, and all `ht[0]` buckets below `rehashidx` are
drained), and no key occurs twice. -/

/-- All entries stored in one table, in bucket order. -/
def htEntries (ht : Dictht) : List (Key × Val) := ht.table.flatten

/-- The `used` field counts the entries. -/
def usedOK (ht : Dictht) : Prop := ht.used = (htEntries ht).length

/-- Every entry hangs in the bucket selected by `hash &&& sizemask`. -/
def bucketsOK (hash : Key → Nat) (ht : Dictht) : Prop :=
  ∀ i : Nat, ∀ e ∈ tableBucket ht.table i, hash e.1 &&& ht.sizemask = i

def WFht (hash : Key → Nat) (ht : Dictht) : Prop :=
  usedOK ht ∧ bucketsOK hash ht

/-- All entries of the dictionary, `ht[0]` first. -/
def dictEntriesL (d : Dict) : List (Key × Val) := htEntries d.ht0 ++ htEntries d.ht1

/-- All stored keys. -/
def dictKeysL (d : Dict) : List Key := (dictEntriesL d).map Prod.fst

/-- Rehash bookkeeping: either no rehash is in progress and `ht[1]` is empty
and unallocated, or `rehashidx ∈ [0, ∞)`, both tables are allocated, and
every `ht[0]` bucket strictly below `rehashidx` has been drained. -/
def rehashStateOK (d : Dict) : Prop :=
  (d.rehashidx = -1 ∧ d.ht1.table = [] ∧ d.ht1.used = 0) ∨
  (0 ≤ d.rehashidx ∧ d.ht0.table ≠ [] ∧ d.ht1.table ≠ [] ∧
    ∀ i : Nat, (i : Int) < d.rehashidx → tableBucket d.ht0.table i = [])

def WF (hash : Key → Nat) (d : Dict) : Prop :=
  WFht hash d.ht0 ∧ WFht hash d.ht1 ∧ rehashStateOK d ∧ (dictKeysL d).Nodup

theorem WF_dictCreate (hash : Key → Nat) : WF hash dictCreate := by
  refine ⟨⟨rfl, ?_⟩, ⟨rfl, ?_⟩, Or.inl ⟨rfl, rfl, rfl⟩, by simp [dictKeysL, dictEntriesL, htEntries, dictCreate, dictReset]⟩ <;>
    intro i e he <;> simp [dictCreate, dictReset, tableBucket] at he

theorem not_rehashing_iff {d : Dict} (hst : rehashStateOK d) :
    ¬dictIsRehashing d ↔ d.rehashidx = -1 := by
  unfold dictIsRehashing
  simp only [not_not]

theorem rehashing_of_wf {d : Dict} (hst : rehashStateOK d)
    (h : dictIsRehashing d) :
    0 ≤ d.rehashidx ∧ d.ht0.table ≠ [] ∧ d.ht1.table ≠ [] ∧
      ∀ i : Nat, (i : Int) < d.rehashidx → tableBucket d.ht0.table i = [] := by
  rcases hst with ⟨h1, _⟩ | hr
  · exact absurd h1 h
  · exact hr

theorem ht1_empty_of_not_rehashing {d : Dict} (hst : rehashStateOK d)
    (h : ¬dictIsRehashing d) : d.ht1.table = [] ∧ d.ht1.used = 0 := by
  rcases hst with ⟨_, h2, h3⟩ | ⟨hr, _⟩
  · exact ⟨h2, h3⟩
  · exact absurd (fun hc => by rw [hc] at hr; norm_num at hr) h

/-- With correct bucket placement, an entry with key `k` can live only in the
bucket `hash k &&& sizemask`. -/
theorem mem_htEntries_iff {hash : Key → Nat} {ht : Dictht}
    (hb : bucketsOK hash ht) (k : Key) (v : Val) :
    (k, v) ∈ htEntries ht ↔
      (k, v) ∈ tableBucket ht.table (hash k &&& ht.sizemask) := by
  constructor
  · intro h
    obtain ⟨i, hi, hm⟩ := exists_tableBucket_of_mem_flatten h
    have hp := hb i _ hm
    simp only at hp
    rwa [hp]
  · exact mem_flatten_of_mem_tableBucket

/-- The keys of a single bucket are distinct whenever the keys of the whole
table are. -/
theorem bucket_keys_nodup {ht : Dictht} {i : Nat}
    (hnd : ((htEntries ht).map Prod.fst).Nodup) :
    ((tableBucket ht.table i).map Prod.fst).Nodup :=
  ((tableBucket_sublist_flatten ht.table i).map Prod.fst).nodup hnd

theorem mem_unique_of_nodup_keys {l : List (Key × Val)}
    (h : (l.map Prod.fst).Nodup) {k : Key} {v v' : Val}
    (h1 : (k, v) ∈ l) (h2 : (k, v') ∈ l) : v = v' := by
  induction l with
  | nil => simp at h1
  | cons e rest ih =>
    simp only [List.map_cons, List.nodup_cons] at h
    rcases List.mem_cons.mp h1 with he1 | hm1 <;>
      rcases List.mem_cons.mp h2 with he2 | hm2
    · rw [← he2] at he1
      exact congrArg Prod.snd he1
    · rw [← he1] at h
      exact absurd (List.mem_map.mpr ⟨(k, v'), hm2, rfl⟩) h.1
    · rw [← he2] at h
      exact absurd (List.mem_map.mpr ⟨(k, v), hm1, rfl⟩) h.1
    · exact ih h.2 hm1 hm2

theorem nodup_keys_ht0 {hash : Key → Nat} {d : Dict} (hwf : WF hash d) :
    ((htEntries d.ht0).map Prod.fst).Nodup := by
  have := hwf.2.2.2
  unfold dictKeysL dictEntriesL at this
  rw [List.map_append] at this
  exact this.of_append_left

theorem nodup_keys_ht1 {hash : Key → Nat} {d : Dict} (hwf : WF hash d) :
    ((htEntries d.ht1).map Prod.fst).Nodup := by
  have := hwf.2.2.2
  unfold dictKeysL dictEntriesL at this
  rw [List.map_append] at this
  exact this.of_append_right

theorem key_not_in_both {hash : Key → Nat} {d : Dict} (hwf : WF hash d)
    {k : Key} {v : Val} (h0 : (k, v) ∈ htEntries d.ht0) :
    ∀ v', (k, v') ∉ htEntries d.ht1 := by
  intro v' h1
  have hnd := hwf.2.2.2
  unfold dictKeysL dictEntriesL at hnd
  rw [List.map_append] at hnd
  exact (List.disjoint_of_nodup_append hnd)
    (List.mem_map.mpr ⟨(k, v), h0, rfl⟩)
    (List.mem_map.mpr ⟨(k, v'), h1, rfl⟩)

/-- Searching the hash-selected `ht[0]` bucket finds exactly the `ht[0]`
entry for `k`. -/
theorem bucketFind_ht_of_mem {hash : Key → Nat} {ht : Dictht}
    (hb : bucketsOK hash ht) (hnd : ((htEntries ht).map Prod.fst).Nodup)
    {k : Key} {v : Val} (h : (k, v) ∈ htEntries ht) :
    bucketFind k (tableBucket ht.table (hash k &&& ht.sizemask)) = some (k, v) :=
  bucketFind_of_mem_nodup (bucket_keys_nodup hnd)
    ((mem_htEntries_iff hb k v).mp h)

theorem bucketFind_ht_none {hash : Key → Nat} {ht : Dictht}
    (hb : bucketsOK hash ht) {k : Key}
    (h : bucketFind k (tableBucket ht.table (hash k &&& ht.sizemask)) = none) :
    ∀ v, (k, v) ∉ htEntries ht := by
  intro v hm
  exact (bucketFind_none.mp h _ ((mem_htEntries_iff hb k v).mp hm)) rfl

theorem bucketFind_ht_some {ht : Dictht} {k : Key} {i : Nat} {e : Key × Val}
    (h : bucketFind k (tableBucket ht.table i) = some e) :
    e ∈ htEntries ht ∧ e.1 = k :=
  ⟨mem_flatten_of_mem_tableBucket (bucketFind_some h).1, (bucketFind_some h).2⟩

/-! ### Preservation along an incremental rehash -/

theorem moveChain_fst (hash : Key → Nat) (chain : Bucket) (ht0 ht1 : Dictht) :
    (moveChain hash chain ht0 ht1).1 =
      { ht0 with used := ht0.used - chain.length } := by
  induction chain generalizing ht0 ht1 with
  | nil => simp [moveChain]
  | cons de rest ih =>
    rw [moveChain, ih]
    have : ht0.used - 1 - rest.length = ht0.used - (de :: rest).length := by
      simp only [List.length_cons]
      omega
    rw [this]

theorem moveChain_snd (hash : Key → Nat) (chain : Bucket) (ht0 ht1 : Dictht)
    (hne : ht1.table ≠ []) :
    (moveChain hash chain ht0 ht1).2.table.length = ht1.table.length ∧
    (moveChain hash chain ht0 ht1).2.used = ht1.used + chain.length ∧
    List.Perm (htEntries (moveChain hash chain ht0 ht1).2)
      (chain ++ htEntries ht1) ∧
    (bucketsOK hash ht1 → bucketsOK hash (moveChain hash chain ht0 ht1).2) := by
  induction chain generalizing ht0 ht1 with
  | nil =>
    refine ⟨rfl, by simp [moveChain], by simp [moveChain], fun hb => hb⟩
  | cons de rest ih =>
    have hlen : 0 < ht1.table.length := List.length_pos.mpr hne
    set h := hash de.1 &&& ht1.sizemask with hh
    have hlt : h < ht1.table.length := by
      have h1 := @Nat.and_le_right (hash de.1) ht1.sizemask
      rw [← hh] at h1
      have h2 : ht1.sizemask = ht1.table.length - 1 := rfl
      omega
    set ht1' : Dictht :=
      { table := ht1.table.set h (de :: tableBucket ht1.table h),
        used := ht1.used + 1 } with hht1
    have hne' : ht1'.table ≠ [] := by
      have : ht1'.table.length = ht1.table.length := List.length_set ..
      intro hc
      rw [hc] at this
      simp at this
      omega
    obtain ⟨il, iu, ip, ib⟩ := ih { ht0 with used := ht0.used - 1 } ht1' hne'
    rw [moveChain]
    refine ⟨by rw [il, hht1]; exact List.length_set .., ?_, ?_, ?_⟩
    · rw [iu]
      simp [hht1, List.length_cons]
      omega
    · refine ip.trans ?_
      have hp1 : List.Perm (htEntries ht1') (de :: htEntries ht1) :=
        flatten_set_cons_perm ht1.table h hlt de
      refine ((hp1.append_left rest).trans ?_)
      simpa using @List.perm_middle _ de rest (htEntries ht1)
    · intro hb
      refine ib ?_
      intro i e he
      have hmask : ht1'.sizemask = ht1.sizemask := by
        unfold Dictht.sizemask Dictht.size
        rw [hht1]
        simp [List.length_set]
      rcases eq_or_ne h i with rfl | hne2
      · rw [hht1] at he
        simp only at he
        rw [tableBucket_set_self _ hlt] at he
        rcases List.mem_cons.mp he with rfl | hm
        · rw [hmask, ← hh]
        · rw [hmask]
          exact hb h e hm
      · rw [hht1] at he
        simp only at he
        rw [tableBucket_set_ne _ _ hne2] at he
        rw [hmask]
        exact hb i e he

theorem rehashSkipEmpty_spec (t : List Bucket) (idx ev : Nat) :
    (∀ r, rehashSkipEmpty t idx ev = Except.error r →
      idx ≤ r ∧ ∀ j, idx ≤ j → j < r → tableBucket t j = []) ∧
    (∀ i2 ev2, rehashSkipEmpty t idx ev = Except.ok (i2, ev2) →
      idx ≤ i2 ∧ tableBucket t i2 ≠ [] ∧
        ∀ j, idx ≤ j → j < i2 → tableBucket t j = []) := by
  induction ev using Nat.strong_induction_on generalizing idx with
  | _ ev ih =>
    rw [rehashSkipEmpty]
    by_cases hb : tableBucket t idx = []
    · rw [if_pos hb]
      by_cases hev : ev - 1 = 0
      · rw [if_pos hev]
        constructor
        · intro r hr
          simp only [Except.error.injEq] at hr
          subst hr
          refine ⟨Nat.le_succ idx, ?_⟩
          intro j hj1 hj2
          have : j = idx := by omega
          rwa [this]
        · intro i2 ev2 hr
          simp at hr
      · rw [if_neg hev]
        obtain ⟨ihe, iho⟩ := ih (ev - 1) (by omega) (idx + 1)
        constructor
        · intro r hr
          obtain ⟨h1, h2⟩ := ihe r hr
          refine ⟨by omega, ?_⟩
          intro j hj1 hj2
          rcases eq_or_lt_of_le hj1 with rfl | hlt
          · exact hb
          · exact h2 j (by omega) hj2
        · intro i2 ev2 hr
          obtain ⟨h1, h2, h3⟩ := iho i2 ev2 hr
          refine ⟨by omega, h2, ?_⟩
          intro j hj1 hj2
          rcases eq_or_lt_of_le hj1 with rfl | hlt
          · exact hb
          · exact h3 j (by omega) hj2
    · rw [if_neg hb]
      constructor
      · intro r hr
        simp at hr
      · intro i2 ev2 hr
        simp only [Except.ok.injEq, Prod.mk.injEq] at hr
        obtain ⟨rfl, rfl⟩ := hr
        exact ⟨le_refl _, hb, fun j h1 h2 => absurd h1 (by omega)⟩

theorem htEntries_nil_of_used_zero {ht : Dictht} (hu : usedOK ht)
    (h : ht.used = 0) : htEntries ht = [] := by
  unfold usedOK at hu
  rw [h] at hu
  exact List.length_eq_zero.mp hu.symm

theorem bucketsOK_dictReset (hash : Key → Nat) : bucketsOK hash dictReset := by
  intro i e he
  simp [dictReset, tableBucket] at he

theorem rehashFinish_spec (hash : Key → Nat) (d : Dict) (hwf : WF hash d) :
    WF hash (rehashFinish d).2 ∧
    List.Perm (dictEntriesL (rehashFinish d).2) (dictEntriesL d) := by
  unfold rehashFinish
  by_cases hu : d.ht0.used = 0
  · rw [if_pos hu]
    have he0 : htEntries d.ht0 = [] := htEntries_nil_of_used_zero hwf.1.1 hu
    constructor
    · refine ⟨hwf.2.1, ⟨rfl, bucketsOK_dictReset hash⟩,
        Or.inl ⟨rfl, rfl, rfl⟩, ?_⟩
      have := hwf.2.2.2
      unfold dictKeysL dictEntriesL at this ⊢
      simp only [he0, List.nil_append] at this
      simpa [htEntries, dictReset] using this
    · unfold dictEntriesL
      simp only [htEntries] at he0 ⊢
      simp [dictReset, he0]
  · rw [if_neg hu]
    exact ⟨hwf, List.Perm.refl _⟩

theorem rehashLoop_spec (hash : Key → Nat) (n ev : Nat) (d : Dict)
    (hwf : WF hash d) (hreh : dictIsRehashing d) :
    WF hash (rehashLoop hash n ev d).2 ∧
    List.Perm (dictEntriesL (rehashLoop hash n ev d).2) (dictEntriesL d) := by
  induction n generalizing ev d with
  | zero => exact rehashFinish_spec hash d hwf
  | succ n ih =>
    rw [rehashLoop]
    by_cases hu : d.ht0.used = 0
    · rw [if_pos hu]
      exact rehashFinish_spec hash d hwf
    · rw [if_neg hu]
      obtain ⟨hge, htab0, htab1, hpre⟩ := rehashing_of_wf hwf.2.2.1 hreh
      have hidx0 : (d.rehashidx.toNat : Int) = d.rehashidx := Int.toNat_of_nonneg hge
      rcases hskip : rehashSkipEmpty d.ht0.table d.rehashidx.toNat ev with r | ⟨idx, ev'⟩
      · obtain ⟨hr1, hr2⟩ := (rehashSkipEmpty_spec d.ht0.table d.rehashidx.toNat ev).1 r hskip
        simp only
        constructor
        · refine ⟨hwf.1, hwf.2.1, Or.inr ⟨by positivity, htab0, htab1, ?_⟩, hwf.2.2.2⟩
          intro i hi
          simp only at hi
          by_cases hlt : (i : Int) < d.rehashidx
          · exact hpre i hlt
          · refine hr2 i ?_ ?_ <;> omega
        · exact List.Perm.refl _
      · obtain ⟨hr1, hr2, hr3⟩ :=
          (rehashSkipEmpty_spec d.ht0.table d.rehashidx.toNat ev).2 idx ev' hskip
        have hlt : idx < d.ht0.table.length := lt_length_of_tableBucket_ne hr2
        simp only
        set chain := tableBucket d.ht0.table idx with hchain
        have hmv1 := moveChain_fst hash chain d.ht0 d.ht1
        obtain ⟨hl1, hl2, hl3, hl4⟩ := moveChain_snd hash chain d.ht0 d.ht1 htab1
        set p := moveChain hash chain d.ht0 d.ht1 with hp
        set d' : Dict :=
          { d with
            ht0 := { p.1 with table := p.1.table.set idx [] },
            ht1 := p.2,
            rehashidx := (idx : Int) + 1 } with hd'
        have hpt : p.1.table = d.ht0.table := by rw [hmv1]
        have hpu : p.1.used = d.ht0.used - chain.length := by rw [hmv1]
        -- count the entries of the drained bucket
        have hcount : d.ht0.table.flatten.length =
            chain.length + ((d.ht0.table.set idx []).flatten).length := by
          have hperm := (flatten_eq_bucket_append d.ht0.table idx hlt).length_eq
          simp only [List.length_append] at hperm
          rw [← hchain] at hperm
          omega
        have hwf0 : WFht hash { p.1 with table := p.1.table.set idx [] } := by
          constructor
          · have h0 := hwf.1.1
            unfold usedOK htEntries at h0 ⊢
            simp only [hpu, hpt]
            omega
          · intro i e he
            simp only [hpt] at he
            have hmask : ({ p.1 with table := p.1.table.set idx [] } : Dictht).sizemask =
                d.ht0.sizemask := by
              unfold Dictht.sizemask Dictht.size
              simp [hpt, List.length_set]
            rcases eq_or_ne idx i with rfl | hne2
            · rw [tableBucket_set_self _ hlt] at he
              simp at he
            · rw [tableBucket_set_ne _ _ hne2] at he
              rw [hmask]
              exact hwf.1.2 i e he
        have hwf1 : WFht hash p.2 := by
          constructor
          · have h1 := hwf.2.1.1
            unfold usedOK at h1 ⊢
            rw [hl2, hl3.length_eq, List.length_append]
            omega
          · exact hl4 hwf.2.1.2
        have hperm' : List.Perm (dictEntriesL d') (dictEntriesL d) := by
          have step1 : List.Perm (dictEntriesL d')
              (htEntries { p.1 with table := p.1.table.set idx [] } ++
                (chain ++ htEntries d.ht1)) := by
            unfold dictEntriesL
            simp only [hd']
            exact hl3.append_left _
          refine step1.trans ?_
          rw [← List.append_assoc]
          refine List.Perm.append_right _ ?_
          refine List.Perm.trans List.perm_append_comm ?_
          have h2 := flatten_eq_bucket_append d.ht0.table idx hlt
          unfold htEntries
          simp only [hpt]
          exact h2.symm
        have hwfd' : WF hash d' := by
          refine ⟨hwf0, hwf1, ?_, ?_⟩
          · refine Or.inr ⟨by positivity, ?_, ?_, ?_⟩
            · simp only [hd', hpt]
              intro hc
              have hlen := congrArg List.length hc
              rw [List.length_set] at hlen
              simp only [List.length_nil] at hlen
              omega
            · simp only [hd']
              intro hc
              have hlen := congrArg List.length hc
              rw [hl1] at hlen
              simp only [List.length_nil] at hlen
              exact htab1 (List.length_eq_zero.mp hlen)
            · intro i hi
              simp only [hd', hpt] at hi ⊢
              rcases eq_or_ne idx i with rfl | hne2
              · exact tableBucket_set_self _ hlt
              · rw [tableBucket_set_ne _ _ hne2]
                by_cases hlt2 : (i : Int) < d.rehashidx
                · exact hpre i hlt2
                · refine hr3 i ?_ ?_ <;> omega
          · exact (hperm'.map Prod.fst).nodup_iff.mpr hwf.2.2.2
        have hreh' : dictIsRehashing d' := by
          simp only [hd', dictIsRehashing]
          intro hc
          omega
        obtain ⟨ihw, ihp⟩ := ih ev' d' hwfd' hreh'
        exact ⟨ihw, ihp.trans hperm'⟩

theorem dictRehash_spec (hash : Key → Nat) (d : Dict) (n : Nat)
    (hwf : WF hash d) :
    WF hash (dictRehash hash d n).2 ∧
    List.Perm (dictEntriesL (dictRehash hash d n).2) (dictEntriesL d) := by
  unfold dictRehash
  by_cases h : dictIsRehashing d
  · rw [if_neg (not_not_intro h)]
    exact rehashLoop_spec hash n (n * 10) d hwf h
  · rw [if_pos h]
    exact ⟨hwf, List.Perm.refl _⟩

theorem dictRehashStep_spec (hash : Key → Nat) (d : Dict) (hwf : WF hash d) :
    WF hash (dictRehashStep hash d) ∧
    List.Perm (dictEntriesL (dictRehashStep hash d)) (dictEntriesL d) := by
  unfold dictRehashStep
  by_cases h : d.iterators = 0
  · rw [if_pos h]
    exact dictRehash_spec hash d 1 hwf
  · rw [if_neg h]
    exact ⟨hwf, List.Perm.refl _⟩

/-! ### The size policy: powers of two -/

def IsPow2 (n : Nat) : Prop := ∃ k, n = 2 ^ k

theorem nextPowerLoop_spec (size a : Nat) :
    IsPow2 (nextPowerLoop size (2 ^ a)) ∧ 2 ^ a ≤ nextPowerLoop size (2 ^ a) ∧
    size ≤ nextPowerLoop size (2 ^ a) ∧
    ∀ m, IsPow2 m → 2 ^ a ≤ m → size ≤ m → nextPowerLoop size (2 ^ a) ≤ m := by
  have hpos : 0 < 2 ^ a := Nat.two_pow_pos a
  by_cases hge : 2 ^ a ≥ size
  · rw [nextPowerLoop, if_neg (by omega), if_pos hge]
    exact ⟨⟨a, rfl⟩, le_refl _, hge, fun m _ him _ => him⟩
  · rw [nextPowerLoop, if_neg (by omega), if_neg hge]
    rw [not_le] at hge
    have h2 : 2 ^ a * 2 = 2 ^ (a + 1) := by rw [pow_succ]
    rw [h2]
    obtain ⟨P, hge2, hsz, hmin⟩ := nextPowerLoop_spec size (a + 1)
    refine ⟨P, le_trans (Nat.pow_le_pow_right (by omega) (Nat.le_succ a)) hge2,
      hsz, ?_⟩
    intro m hm him hszm
    obtain ⟨b, rfl⟩ := hm
    have hab : a < b := by
      have hlt : (2 : Nat) ^ a < 2 ^ b := lt_of_lt_of_le hge hszm
      exact (Nat.pow_lt_pow_iff_right (by omega)).mp hlt
    exact hmin _ ⟨b, rfl⟩ (Nat.pow_le_pow_right (by omega) hab) hszm
termination_by size - 2 ^ a
decreasing_by
  have h3 : 2 ^ (a + 1) = 2 ^ a * 2 := by rw [pow_succ]
  omega

theorem dictNextPower_spec (size : Nat) (h : size < LONG_MAX) :
    IsPow2 (dictNextPower size) ∧
    DICT_HT_INITIAL_SIZE ≤ dictNextPower size ∧
    size ≤ dictNextPower size ∧
    ∀ m, IsPow2 m → DICT_HT_INITIAL_SIZE ≤ m → size ≤ m →
      dictNextPower size ≤ m := by
  unfold dictNextPower
  rw [if_neg (by omega)]
  have h4 : DICT_HT_INITIAL_SIZE = 2 ^ 2 := rfl
  rw [h4]
  exact nextPowerLoop_spec size 2

theorem dictNextPower_pos (size : Nat) : 0 < dictNextPower size := by
  unfold dictNextPower
  by_cases h : size ≥ LONG_MAX
  · rw [if_pos h]
    omega
  · rw [if_neg h]
    have h4 : DICT_HT_INITIAL_SIZE = 2 ^ 2 := rfl
    rw [h4]
    have := (nextPowerLoop_spec size 2).2.1
    omega

/-! ### Expansion preserves the invariant -/

theorem tableBucket_replicate_nil (n i : Nat) :
    tableBucket (List.replicate n ([] : Bucket)) i = [] := by
  unfold tableBucket
  rw [List.getD_eq_getElem?_getD, List.getElem?_replicate]
  by_cases h : i < n
  · rw [if_pos h]
    rfl
  · rw [if_neg h]
    rfl

theorem flatten_replicate_nil (n : Nat) :
    (List.replicate n ([] : Bucket)).flatten = [] := by
  induction n with
  | zero => rfl
  | succ n ih => simp [List.replicate_succ, ih]

theorem WFht_fresh (hash : Key → Nat) (realsize : Nat) :
    WFht hash { table := List.replicate realsize [], used := 0 } := by
  constructor
  · unfold usedOK htEntries
    simp [flatten_replicate_nil]
  · intro i e he
    rw [tableBucket_replicate_nil] at he
    simp at he

theorem dictExpand_spec (hash : Key → Nat) (d : Dict) (size : Nat)
    (hwf : WF hash d) :
    WF hash (dictExpand d size).2 ∧
    dictEntriesL (dictExpand d size).2 = dictEntriesL d := by
  unfold dictExpand
  by_cases hg : dictIsRehashing d ∨ d.ht0.used > size
  · rw [if_pos hg]
    exact ⟨hwf, rfl⟩
  · rw [if_neg hg]
    push_neg at hg
    have hnr : ¬dictIsRehashing d := hg.1
    have hidx : d.rehashidx = -1 := by
      unfold dictIsRehashing at hnr
      simpa using hnr
    obtain ⟨ht1e, ht1u⟩ := ht1_empty_of_not_rehashing hwf.2.2.1 hnr
    by_cases hsz : dictNextPower size = d.ht0.size
    · rw [if_pos hsz]
      exact ⟨hwf, rfl⟩
    · rw [if_neg hsz]
      by_cases hnil : d.ht0.table = []
      · rw [if_pos hnil]
        show WF hash { d with ht0 :=
            { table := List.replicate (dictNextPower size) [], used := 0 } } ∧
          dictEntriesL { d with ht0 :=
            { table := List.replicate (dictNextPower size) [], used := 0 } } = dictEntriesL d
        have hE0 : dictEntriesL { d with ht0 :=
            { table := List.replicate (dictNextPower size) [], used := 0 } } = dictEntriesL d := by
          unfold dictEntriesL htEntries
          simp only
          rw [hnil, flatten_replicate_nil]
          rfl
        refine ⟨⟨WFht_fresh hash _, hwf.2.1, Or.inl ⟨hidx, ht1e, ht1u⟩, ?_⟩, hE0⟩
        have hnd := hwf.2.2.2
        unfold dictKeysL at hnd ⊢
        rw [hE0]
        exact hnd
      · rw [if_neg hnil]
        show WF hash { d with ht1 :=
            { table := List.replicate (dictNextPower size) [], used := 0 }, rehashidx := 0 } ∧
          dictEntriesL { d with ht1 :=
            { table := List.replicate (dictNextPower size) [], used := 0 }, rehashidx := 0 } = dictEntriesL d
        have hE1 : dictEntriesL { d with ht1 :=
            { table := List.replicate (dictNextPower size) [], used := 0 }, rehashidx := 0 } = dictEntriesL d := by
          unfold dictEntriesL htEntries
          simp only
          rw [ht1e, flatten_replicate_nil]
          rfl
        refine ⟨⟨hwf.1, WFht_fresh hash _, ?_, ?_⟩, hE1⟩
        · refine Or.inr ⟨le_refl 0, hnil, ?_, ?_⟩
          · intro hc
            have hlen := congrArg List.length hc
            rw [List.length_replicate] at hlen
            simp only [List.length_nil] at hlen
            have := dictNextPower_pos size
            omega
          · intro i hi
            have hi2 : (i : Int) < 0 := hi
            omega
        · have hnd := hwf.2.2.2
          unfold dictKeysL at hnd ⊢
          rw [hE1]
          exact hnd

theorem dictExpandIfNeeded_spec (hash : Key → Nat) (canResize : Bool)
    (d : Dict) (hwf : WF hash d) :
    WF hash (dictExpandIfNeeded canResize d).2 ∧
    dictEntriesL (dictExpandIfNeeded canResize d).2 = dictEntriesL d := by
  unfold dictExpandIfNeeded
  by_cases h1 : dictIsRehashing d
  · rw [if_pos h1]
    exact ⟨hwf, rfl⟩
  · rw [if_neg h1]
    by_cases h2 : d.ht0.size = 0
    · rw [if_pos h2]
      exact dictExpand_spec hash d _ hwf
    · rw [if_neg h2]
      by_cases h3 : d.ht0.used ≥ d.ht0.size ∧
          (canResize ∨ d.ht0.used / d.ht0.size > dict_force_resize_ratio)
      · rw [if_pos h3]
        exact dictExpand_spec hash d _ hwf
      · rw [if_neg h3]
        exact ⟨hwf, rfl⟩

theorem dictExpand_err (d : Dict) (size : Nat)
    (h : (dictExpand d size).1 = DICT_ERR) : (dictExpand d size).2 = d := by
  unfold dictExpand at h ⊢
  by_cases hg : dictIsRehashing d ∨ d.ht0.used > size
  · rw [if_pos hg]
  · rw [if_neg hg] at h ⊢
    by_cases hsz : dictNextPower size = d.ht0.size
    · rw [if_pos hsz]
    · rw [if_neg hsz] at h ⊢
      by_cases hnil : d.ht0.table = []
      · rw [if_pos hnil] at h
        have hc : DICT_OK = DICT_ERR := h
        exact absurd hc (by decide)
      · rw [if_neg hnil] at h
        have hc : DICT_OK = DICT_ERR := h
        exact absurd hc (by decide)

theorem dictExpand_ok_table (d : Dict) (size : Nat)
    (h : (dictExpand d size).1 ≠ DICT_ERR) :
    (dictExpand d size).2.ht0.table ≠ [] := by
  unfold dictExpand at h ⊢
  by_cases hg : dictIsRehashing d ∨ d.ht0.used > size
  · rw [if_pos hg] at h
    exact absurd rfl h
  · rw [if_neg hg] at h ⊢
    by_cases hsz : dictNextPower size = d.ht0.size
    · rw [if_pos hsz] at h
      exact absurd rfl h
    · rw [if_neg hsz] at h ⊢
      by_cases hnil : d.ht0.table = []
      · rw [if_pos hnil]
        intro hc
        have hlen := congrArg List.length hc
        rw [List.length_replicate] at hlen
        simp only [List.length_nil] at hlen
        have := dictNextPower_pos size
        omega
      · rw [if_neg hnil]
        exact hnil

theorem dictExpandIfNeeded_err (canResize : Bool) (d : Dict)
    (h : (dictExpandIfNeeded canResize d).1 = DICT_ERR) :
    (dictExpandIfNeeded canResize d).2 = d := by
  unfold dictExpandIfNeeded at h ⊢
  by_cases h1 : dictIsRehashing d
  · rw [if_pos h1]
  · rw [if_neg h1] at h ⊢
    by_cases h2 : d.ht0.size = 0
    · rw [if_pos h2] at h ⊢
      exact dictExpand_err d _ h
    · rw [if_neg h2] at h ⊢
      by_cases h3 : d.ht0.used ≥ d.ht0.size ∧
          (canResize ∨ d.ht0.used / d.ht0.size > dict_force_resize_ratio)
      · rw [if_pos h3] at h ⊢
        exact dictExpand_err d _ h
      · rw [if_neg h3]

theorem dictExpandIfNeeded_ok_table (hash : Key → Nat) (canResize : Bool)
    (d : Dict) (hwf : WF hash d)
    (h : (dictExpandIfNeeded canResize d).1 ≠ DICT_ERR) :
    (dictExpandIfNeeded canResize d).2.ht0.table ≠ [] := by
  unfold dictExpandIfNeeded at h ⊢
  by_cases h1 : dictIsRehashing d
  · rw [if_pos h1]
    exact (rehashing_of_wf hwf.2.2.1 h1).2.1
  · rw [if_neg h1] at h ⊢
    by_cases h2 : d.ht0.size = 0
    · rw [if_pos h2] at h ⊢
      exact dictExpand_ok_table d _ h
    · rw [if_neg h2] at h ⊢
      by_cases h3 : d.ht0.used ≥ d.ht0.size ∧
          (canResize ∨ d.ht0.used / d.ht0.size > dict_force_resize_ratio)
      · rw [if_pos h3] at h ⊢
        exact dictExpand_ok_table d _ h
      · rw [if_neg h3]
        intro hc
        unfold Dictht.size at h2
        rw [hc] at h2
        simp at h2

/-- The expand policy can fail only on astronomically large tables: with at
most `2^61` stored entries it always succeeds. -/
theorem dictExpandIfNeeded_no_err (hash : Key → Nat) (canResize : Bool)
    (d : Dict) (hwf : WF hash d) (hused : d.ht0.used ≤ 2 ^ 61) :
    (dictExpandIfNeeded canResize d).1 ≠ DICT_ERR := by
  unfold dictExpandIfNeeded
  by_cases h1 : dictIsRehashing d
  · rw [if_pos h1]
    intro hc
    have hc2 : DICT_OK = DICT_ERR := hc
    exact absurd hc2 (by decide)
  · rw [if_neg h1]
    by_cases h2 : d.ht0.size = 0
    · rw [if_pos h2]
      have hu0 : d.ht0.used = 0 := by
        have h0 := hwf.1.1
        unfold usedOK htEntries at h0
        unfold Dictht.size at h2
        rw [List.length_eq_zero.mp h2] at h0
        simpa using h0
      have hsp4 := dictNextPower_spec DICT_HT_INITIAL_SIZE (by decide)
      have hnp : dictNextPower DICT_HT_INITIAL_SIZE = 4 :=
        le_antisymm (hsp4.2.2.2 4 ⟨2, rfl⟩ (le_refl _) (le_refl _)) hsp4.2.1
      unfold dictExpand
      rw [if_neg (by push_neg; exact ⟨h1, by omega⟩), hnp, if_neg (by omega)]
      by_cases hnil : d.ht0.table = []
      · rw [if_pos hnil]
        intro hc
        have hc2 : DICT_OK = DICT_ERR := hc
        exact absurd hc2 (by decide)
      · rw [if_neg hnil]
        intro hc
        have hc2 : DICT_OK = DICT_ERR := hc
        exact absurd hc2 (by decide)
    · rw [if_neg h2]
      by_cases h3 : d.ht0.used ≥ d.ht0.size ∧
          (canResize ∨ d.ht0.used / d.ht0.size > dict_force_resize_ratio)
      · rw [if_pos h3]
        have hlt : d.ht0.used * 2 < LONG_MAX := by
          unfold LONG_MAX
          omega
        have hsp := (dictNextPower_spec (d.ht0.used * 2) hlt).2.2.1
        unfold dictExpand
        rw [if_neg (by push_neg; exact ⟨h1, by omega⟩), if_neg (by omega)]
        by_cases hnil : d.ht0.table = []
        · rw [if_pos hnil]
          intro hc
          have hc2 : DICT_OK = DICT_ERR := hc
          exact absurd hc2 (by decide)
        · rw [if_neg hnil]
          intro hc
          have hc2 : DICT_OK = DICT_ERR := hc
          exact absurd hc2 (by decide)
      · rw [if_neg h3]
        intro hc
        have hc2 : DICT_OK = DICT_ERR := hc
        exact absurd hc2 (by decide)

/-! ### Specification of `_dictKeyIndex` -/

theorem dictKeyIndex_spec (hash : Key → Nat) (cr : Bool) (d : Dict) (k : Key)
    (hwf : WF hash d) :
    WF hash (dictKeyIndex hash cr d k (hash k)).d ∧
    dictEntriesL (dictKeyIndex hash cr d k (hash k)).d = dictEntriesL d ∧
    (∀ e, (dictKeyIndex hash cr d k (hash k)).existing = some e →
      e.1 = k ∧ e ∈ dictEntriesL d ∧
      (dictKeyIndex hash cr d k (hash k)).index = none) ∧
    (∀ i, (dictKeyIndex hash cr d k (hash k)).index = some i →
      (dictKeyIndex hash cr d k (hash k)).existing = none ∧
      (∀ v, (k, v) ∉ dictEntriesL d) ∧
      (if dictIsRehashing (dictKeyIndex hash cr d k (hash k)).d
        then i = hash k &&& (dictKeyIndex hash cr d k (hash k)).d.ht1.sizemask ∧
          i < (dictKeyIndex hash cr d k (hash k)).d.ht1.table.length
        else i = hash k &&& (dictKeyIndex hash cr d k (hash k)).d.ht0.sizemask ∧
          i < (dictKeyIndex hash cr d k (hash k)).d.ht0.table.length)) ∧
    ((dictKeyIndex hash cr d k (hash k)).index = none →
      (dictKeyIndex hash cr d k (hash k)).existing = none →
      (dictExpandIfNeeded cr d).1 = DICT_ERR) := by
  obtain ⟨hwf1, hE⟩ := dictExpandIfNeeded_spec hash cr d hwf
  unfold dictKeyIndex
  by_cases herr : (dictExpandIfNeeded cr d).1 = DICT_ERR
  · rw [if_pos herr]
    have hd := dictExpandIfNeeded_err cr d herr
    refine ⟨by rw [hd]; exact hwf, by rw [hd], ?_, ?_, fun _ _ => herr⟩
    · intro e he
      simp at he
    · intro i hi
      simp at hi
  · rw [if_neg herr]
    have htab0 : (dictExpandIfNeeded cr d).2.ht0.table ≠ [] :=
      dictExpandIfNeeded_ok_table hash cr d hwf herr
    set d1 := (dictExpandIfNeeded cr d).2 with hd1
    rcases hf0 : bucketFind k (tableBucket d1.ht0.table (hash k &&& d1.ht0.sizemask)) with _ | e0
    · -- not in ht[0]
      have hnot0 : ∀ v, (k, v) ∉ htEntries d1.ht0 :=
        bucketFind_ht_none hwf1.1.2 hf0
      simp only [hf0]
      by_cases hreh : dictIsRehashing d1
      · rw [if_neg (not_not_intro hreh)]
        rcases hf1 : bucketFind k (tableBucket d1.ht1.table (hash k &&& d1.ht1.sizemask)) with _ | e1
        · -- free slot in ht[1]
          simp only [hf1]
          have hnot1 : ∀ v, (k, v) ∉ htEntries d1.ht1 :=
            bucketFind_ht_none hwf1.2.1.2 hf1
          refine ⟨hwf1, hE, ?_, ?_, ?_⟩
          · intro e he
            simp at he
          · intro i hi
            simp only [Option.some.injEq] at hi
            subst hi
            refine ⟨trivial, ?_, ?_⟩
            · intro v hv
              rw [← hE] at hv
              rcases List.mem_append.mp hv with hm | hm
              · exact hnot0 v hm
              · exact hnot1 v hm
            · rw [if_pos hreh]
              refine ⟨rfl, ?_⟩
              show hash k &&& d1.ht1.sizemask < d1.ht1.table.length
              have hne1 : d1.ht1.table ≠ [] := (rehashing_of_wf hwf1.2.2.1 hreh).2.2.1
              have hlen : 0 < d1.ht1.table.length := List.length_pos.mpr hne1
              have hand := @Nat.and_le_right (hash k) d1.ht1.sizemask
              have hmask : d1.ht1.sizemask = d1.ht1.table.length - 1 := rfl
              omega
          · intro hi
            simp at hi
        · -- found in ht[1]
          simp only [hf1]
          obtain ⟨hm, hfst⟩ := bucketFind_ht_some hf1
          refine ⟨hwf1, hE, ?_, ?_, ?_⟩
          · intro e he
            simp only [Option.some.injEq] at he
            subst he
            exact ⟨hfst, by rw [← hE]; exact List.mem_append.mpr (Or.inr hm), trivial⟩
          · intro i hi
            simp at hi
          · intro hi he
            simp at he
      · rw [if_pos hreh]
        -- free slot in ht[0]
        have he1 : htEntries d1.ht1 = [] := by
          unfold htEntries
          rw [(ht1_empty_of_not_rehashing hwf1.2.2.1 hreh).1]
          rfl
        refine ⟨hwf1, hE, ?_, ?_, ?_⟩
        · intro e he
          simp at he
        · intro i hi
          simp only [Option.some.injEq] at hi
          subst hi
          refine ⟨rfl, ?_, ?_⟩
          · intro v hv
            rw [← hE] at hv
            rcases List.mem_append.mp hv with hm | hm
            · exact hnot0 v hm
            · rw [he1] at hm
              simp at hm
          · rw [if_neg hreh]
            refine ⟨rfl, ?_⟩
            show hash k &&& d1.ht0.sizemask < d1.ht0.table.length
            have hlen : 0 < d1.ht0.table.length := List.length_pos.mpr htab0
            have hand := @Nat.and_le_right (hash k) d1.ht0.sizemask
            have hmask : d1.ht0.sizemask = d1.ht0.table.length - 1 := rfl
            omega
        · intro hi
          simp at hi
    · -- found in ht[0]
      simp only [hf0]
      obtain ⟨hm, hfst⟩ := bucketFind_ht_some hf0
      refine ⟨hwf1, hE, ?_, ?_, ?_⟩
      · intro e he
        simp only [Option.some.injEq] at he
        subst he
        exact ⟨hfst, by rw [← hE]; exact List.mem_append.mpr (Or.inl hm), trivial⟩
      · intro i hi
        simp at hi
      · intro hi he
        simp at he

/-! ### Specification of `dictAddRaw` and the derived operations -/

theorem insert_ht_spec (hash : Key → Nat) (ht : Dictht) (k : Key) (v : Val)
    (i : Nat) (hi : i = hash k &&& ht.sizemask) (hlt : i < ht.table.length)
    (hwfht : WFht hash ht) :
    WFht hash { table := ht.table.set i ((k, v) :: tableBucket ht.table i),
                used := ht.used + 1 } ∧
    List.Perm
      (htEntries { table := ht.table.set i ((k, v) :: tableBucket ht.table i),
                   used := ht.used + 1 })
      ((k, v) :: htEntries ht) ∧
    (k, v) ∈ htEntries { table := ht.table.set i ((k, v) :: tableBucket ht.table i),
                         used := ht.used + 1 } ∧
    (ht.table.set i ((k, v) :: tableBucket ht.table i)).length = ht.table.length := by
  have hperm : List.Perm ((ht.table.set i ((k, v) :: tableBucket ht.table i)).flatten)
      ((k, v) :: ht.table.flatten) := flatten_set_cons_perm ht.table i hlt (k, v)
  refine ⟨⟨?_, ?_⟩, hperm, ?_, List.length_set ..⟩
  · have hu := hwfht.1
    unfold usedOK htEntries at hu ⊢
    rw [hperm.length_eq]
    simp only [List.length_cons]
    omega
  · intro j e he
    have hmask : Dictht.sizemask
        { table := ht.table.set i ((k, v) :: tableBucket ht.table i),
          used := ht.used + 1 } = ht.sizemask := by
      unfold Dictht.sizemask Dictht.size
      simp [List.length_set]
    simp only at he
    rcases eq_or_ne i j with rfl | hne
    · rw [tableBucket_set_self _ hlt] at he
      rcases List.mem_cons.mp he with rfl | hm
      · rw [hmask, ← hi]
      · rw [hmask]
        exact hwfht.2 i e hm
    · rw [tableBucket_set_ne _ _ hne] at he
      rw [hmask]
      exact hwfht.2 j e he
  · simp only [htEntries]
    refine @mem_flatten_of_mem_tableBucket _ i _ ?_
    rw [tableBucket_set_self _ hlt]
    exact List.mem_cons_self ..

theorem dictAddRaw_spec (hash : Key → Nat) (cr : Bool) (d : Dict) (k : Key)
    (v : Val) (hwf : WF hash d) :
    WF hash (dictAddRaw hash cr d k v).d ∧
    (∀ e, (dictAddRaw hash cr d k v).entry = some e → e = (k, v) ∧
      List.Perm (dictEntriesL (dictAddRaw hash cr d k v).d)
        ((k, v) :: dictEntriesL d) ∧
      (∀ v', (k, v') ∉ dictEntriesL d) ∧
      (dictIsRehashing (dictAddRaw hash cr d k v).d →
        e ∈ htEntries (dictAddRaw hash cr d k v).d.ht1) ∧
      (¬dictIsRehashing (dictAddRaw hash cr d k v).d →
        e ∈ htEntries (dictAddRaw hash cr d k v).d.ht0)) ∧
    ((dictAddRaw hash cr d k v).entry = none →
      List.Perm (dictEntriesL (dictAddRaw hash cr d k v).d) (dictEntriesL d)) ∧
    (∀ e, (dictAddRaw hash cr d k v).existing = some e → e.1 = k ∧
      (∃ v0, (k, v0) ∈ dictEntriesL d) ∧ (dictAddRaw hash cr d k v).entry = none) ∧
    ((dictAddRaw hash cr d k v).entry = none →
      (dictAddRaw hash cr d k v).existing = none →
      (dictExpandIfNeeded cr
        (if dictIsRehashing d then dictRehashStep hash d else d)).1 = DICT_ERR) := by
  obtain ⟨hwf0, hperm0⟩ :
      WF hash (if dictIsRehashing d then dictRehashStep hash d else d) ∧
      List.Perm (dictEntriesL (if dictIsRehashing d then dictRehashStep hash d else d))
        (dictEntriesL d) := by
    by_cases hreh : dictIsRehashing d
    · rw [if_pos hreh]
      exact dictRehashStep_spec hash d hwf
    · rw [if_neg hreh]
      exact ⟨hwf, List.Perm.refl _⟩
  unfold dictAddRaw
  set d0 := if dictIsRehashing d then dictRehashStep hash d else d with hd0
  obtain ⟨hkwf, hkE, hkex, hkidx, hkerr⟩ := dictKeyIndex_spec hash cr d0 k hwf0
  rcases hidx : (dictKeyIndex hash cr d0 k (hash k)).index with _ | i
  · simp only [hidx]
    refine ⟨hkwf, ?_, ?_, ?_, ?_⟩
    · intro e he
      exact Option.noConfusion he
    · intro _
      rw [hkE]
      exact hperm0
    · intro e he
      obtain ⟨h1, h2, _⟩ := hkex e he
      refine ⟨h1, ?_, trivial⟩
      obtain ⟨k0, v0⟩ := e
      subst h1
      exact ⟨v0, (hperm0.mem_iff).mp h2⟩
    · intro _ he
      exact hkerr hidx he
  · simp only [hidx]
    obtain ⟨hex, hnotin, hplace⟩ := hkidx i hidx
    have hnotin' : ∀ v', (k, v') ∉ dictEntriesL d := by
      intro v' hv
      exact hnotin v' ((hperm0.mem_iff).mpr hv)
    by_cases hreh : dictIsRehashing (dictKeyIndex hash cr d0 k (hash k)).d
    · rw [if_pos hreh]
      rw [if_pos hreh] at hplace
      set dk := (dictKeyIndex hash cr d0 k (hash k)).d with hdk
      obtain ⟨hwfi, hpermi, hmemi, hleni⟩ :=
        insert_ht_spec hash dk.ht1 k v i hplace.1 hplace.2 hkwf.2.1
      have hpermE : List.Perm
          (dictEntriesL { dk with ht1 :=
            { table := dk.ht1.table.set i ((k, v) :: tableBucket dk.ht1.table i),
              used := dk.ht1.used + 1 } })
          ((k, v) :: dictEntriesL dk) := by
        unfold dictEntriesL
        simp only
        refine (hpermi.append_left (htEntries dk.ht0)).trans ?_
        exact List.perm_middle
      have hpermD : List.Perm
          (dictEntriesL { dk with ht1 :=
            { table := dk.ht1.table.set i ((k, v) :: tableBucket dk.ht1.table i),
              used := dk.ht1.used + 1 } })
          ((k, v) :: dictEntriesL d) := by
        refine hpermE.trans (List.Perm.cons _ ?_)
        rw [hkE]
        exact hperm0
      refine ⟨?_, ?_, ?_, ?_, ?_⟩
      · obtain ⟨hreh2, ht0ne, ht1ne, hpre⟩ := rehashing_of_wf hkwf.2.2.1 hreh
        refine ⟨hkwf.1, hwfi, Or.inr ⟨hreh2, ht0ne, ?_, hpre⟩, ?_⟩
        · simp only
          intro hc
          have hlen := congrArg List.length hc
          rw [hleni] at hlen
          simp only [List.length_nil] at hlen
          exact ht1ne (List.length_eq_zero.mp hlen)
        · have hkeys := hpermD.map Prod.fst
          refine (hkeys.nodup_iff).mpr ?_
          simp only [List.map_cons, List.nodup_cons]
          refine ⟨?_, hwf.2.2.2⟩
          intro hmem
          obtain ⟨⟨k2, v2⟩, hm2, hf2⟩ := List.mem_map.mp hmem
          simp only at hf2
          subst hf2
          exact hnotin' v2 hm2
      · intro e he
        simp only [Option.some.injEq] at he
        subst he
        refine ⟨rfl, hpermD, hnotin', ?_, ?_⟩
        · intro _
          exact hmemi
        · intro hc
          exact absurd hreh hc
      · intro he
        simp at he
      · intro e he
        simp only at he
        obtain ⟨h1, h2, _⟩ := hkex e he
        refine ⟨h1, ?_, ?_⟩
        · obtain ⟨k0, v0⟩ := e
          subst h1
          exact ⟨v0, (hperm0.mem_iff).mp h2⟩
        · exact absurd he (by rw [hex]; simp)
      · intro he
        simp at he
    · rw [if_neg hreh]
      rw [if_neg hreh] at hplace
      set dk := (dictKeyIndex hash cr d0 k (hash k)).d with hdk
      obtain ⟨hwfi, hpermi, hmemi, hleni⟩ :=
        insert_ht_spec hash dk.ht0 k v i hplace.1 hplace.2 hkwf.1
      obtain ⟨hidxm1, ht1nil, ht1z⟩ :
          dk.rehashidx = -1 ∧ dk.ht1.table = [] ∧ dk.ht1.used = 0 := by
        rcases hkwf.2.2.1 with h | h
        · exact h
        · exact absurd (fun hc => by rw [hc] at h; norm_num at h) hreh
      have hpermE : List.Perm
          (dictEntriesL { dk with ht0 :=
            { table := dk.ht0.table.set i ((k, v) :: tableBucket dk.ht0.table i),
              used := dk.ht0.used + 1 } })
          ((k, v) :: dictEntriesL dk) := by
        unfold dictEntriesL
        simp only
        exact hpermi.append_right _
      have hpermD : List.Perm
          (dictEntriesL { dk with ht0 :=
            { table := dk.ht0.table.set i ((k, v) :: tableBucket dk.ht0.table i),
              used := dk.ht0.used + 1 } })
          ((k, v) :: dictEntriesL d) := by
        refine hpermE.trans (List.Perm.cons _ ?_)
        rw [hkE]
        exact hperm0
      refine ⟨?_, ?_, ?_, ?_, ?_⟩
      · refine ⟨hwfi, hkwf.2.1, Or.inl ⟨hidxm1, ht1nil, ht1z⟩, ?_⟩
        have hkeys := hpermD.map Prod.fst
        refine (hkeys.nodup_iff).mpr ?_
        simp only [List.map_cons, List.nodup_cons]
        refine ⟨?_, hwf.2.2.2⟩
        intro hmem
        obtain ⟨⟨k2, v2⟩, hm2, hf2⟩ := List.mem_map.mp hmem
        simp only at hf2
        subst hf2
        exact hnotin' v2 hm2
      · intro e he
        simp only [Option.some.injEq] at he
        subst he
        refine ⟨rfl, hpermD, hnotin', ?_, ?_⟩
        · intro hc
          exact absurd hc hreh
        · intro _
          exact hmemi
      · intro he
        simp at he
      · intro e he
        simp only at he
        exact absurd he (by rw [hex]; simp)
      · intro he
        simp at he

theorem bucketSetVal_map_fst (k : Key) (v : Val) (b : Bucket) :
    (bucketSetVal k v b).map Prod.fst = b.map Prod.fst := by
  induction b with
  | nil => rfl
  | cons he rest ih =>
    by_cases hk : he.1 = k
    · simp [bucketSetVal, hk]
    · simp [bucketSetVal, hk, ih]

/-- Updating the value of the (unique) `k` entry inside one table. -/
theorem setval_ht_spec (hash : Key → Nat) (ht : Dictht) (k : Key) (v : Val)
    (e : Key × Val) (hwfht : WFht hash ht)
    (hnd : ((htEntries ht).map Prod.fst).Nodup)
    (hfind : bucketFind k (tableBucket ht.table (hash k &&& ht.sizemask)) = some e) :
    WFht hash (htSetVal hash ht k v) ∧
    (∀ q w, (q, w) ∈ htEntries (htSetVal hash ht k v) ↔
      (if q = k then w = v else (q, w) ∈ htEntries ht)) ∧
    (htEntries (htSetVal hash ht k v)).length = (htEntries ht).length := by
  unfold htSetVal
  set i := hash k &&& ht.sizemask with hi
  set b := tableBucket ht.table i with hb
  have hlt : i < ht.table.length := by
    refine lt_length_of_tableBucket_ne ?_
    intro hc
    rw [hb, hc] at hfind
    simp [bucketFind] at hfind
  have hbperm : List.Perm b (e :: bucketRemove k b) := perm_cons_bucketRemove hfind
  have hsvperm : List.Perm (bucketSetVal k v b) ((k, v) :: bucketRemove k b) :=
    perm_cons_bucketSetVal hfind
  have hefst : e.1 = k := (bucketFind_some hfind).2
  -- the flatten decompositions
  have hflat0 : List.Perm (htEntries ht) (e :: (bucketRemove k b ++ (ht.table.set i []).flatten)) := by
    refine (flatten_eq_bucket_append ht.table i hlt).trans ?_
    rw [← hb]
    exact (hbperm.append_right _).trans (by rw [List.cons_append])
  have hflat1 : List.Perm
      (htEntries { ht with table := ht.table.set i (bucketSetVal k v b) })
      ((k, v) :: (bucketRemove k b ++ (ht.table.set i []).flatten)) := by
    unfold htEntries
    simp only
    refine (flatten_set_perm ht.table i hlt _).trans ?_
    exact (hsvperm.append_right _).trans (by rw [List.cons_append])
  have hkeys0 : List.Perm ((htEntries ht).map Prod.fst)
      (k :: (bucketRemove k b ++ (ht.table.set i []).flatten).map Prod.fst) := by
    have := hflat0.map Prod.fst
    simpa [hefst] using this
  have hknotin : k ∉ (bucketRemove k b ++ (ht.table.set i []).flatten).map Prod.fst := by
    have hnd2 := (hkeys0.nodup_iff).mp hnd
    exact (List.nodup_cons.mp hnd2).1
  refine ⟨⟨?_, ?_⟩, ?_, ?_⟩
  · have hu := hwfht.1
    unfold usedOK at hu ⊢
    rw [hflat1.length_eq]
    rw [hflat0.length_eq] at hu
    simpa using hu
  · intro j q he
    have hmask : Dictht.sizemask { ht with table := ht.table.set i (bucketSetVal k v b) }
        = ht.sizemask := by
      unfold Dictht.sizemask Dictht.size
      simp [List.length_set]
    simp only at he
    rcases eq_or_ne i j with rfl | hne
    · rw [tableBucket_set_self _ hlt] at he
      have hqf : q.1 ∈ b.map Prod.fst := by
        rw [← bucketSetVal_map_fst k v b]
        exact List.mem_map.mpr ⟨q, he, rfl⟩
      obtain ⟨q0, hq0, hq0f⟩ := List.mem_map.mp hqf
      rw [hmask]
      rw [← hq0f]
      exact hwfht.2 i q0 hq0
    · rw [tableBucket_set_ne _ _ hne] at he
      rw [hmask]
      exact hwfht.2 j q he
  · intro q w
    constructor
    · intro hm
      rcases List.mem_cons.mp ((hflat1.mem_iff).mp hm) with hqe | hX
      · rw [Prod.mk.injEq] at hqe
        obtain ⟨rfl, rfl⟩ := hqe
        simp
      · by_cases hqk : q = k
        · subst hqk
          exact absurd (List.mem_map.mpr ⟨(q, w), hX, rfl⟩) hknotin
        · rw [if_neg hqk]
          exact (hflat0.mem_iff).mpr (List.mem_cons_of_mem _ hX)
    · intro hm
      by_cases hqk : q = k
      · subst hqk
        rw [if_pos rfl] at hm
        subst hm
        exact (hflat1.mem_iff).mpr (List.mem_cons_self ..)
      · rw [if_neg hqk] at hm
        rcases List.mem_cons.mp ((hflat0.mem_iff).mp hm) with hqe | hX
        · have hq : q = k := by
            have hq1 := congrArg Prod.fst hqe
            simpa [hefst] using hq1
          exact absurd hq hqk
        · exact (hflat1.mem_iff).mpr (List.mem_cons_of_mem _ hX)
  · rw [hflat1.length_eq, hflat0.length_eq]
    simp

theorem set_getD_self {α : Type} (l : List α) (i : Nat) (d : α)
    (h : i < l.length) : l.set i (l.getD i d) = l := by
  apply List.ext_getElem?
  intro j
  rcases eq_or_ne i j with rfl | hne
  · rw [List.getElem?_set_self']
    rw [List.getD_eq_getElem?_getD, List.getElem?_eq_getElem h]
    simp [List.getElem?_eq_getElem h]
  · rw [List.getElem?_set_ne hne]

theorem htSetVal_keys (hash : Key → Nat) (ht : Dictht) (k : Key) (v : Val) :
    (htEntries (htSetVal hash ht k v)).map Prod.fst =
      (htEntries ht).map Prod.fst := by
  have hstep : ((ht.table.map (List.map Prod.fst)).set (hash k &&& ht.sizemask)
      ((tableBucket ht.table (hash k &&& ht.sizemask)).map Prod.fst))
      = ht.table.map (List.map Prod.fst) := by
    rcases lt_or_le (hash k &&& ht.sizemask) ht.table.length with h | h
    · have h2 : (tableBucket ht.table (hash k &&& ht.sizemask)).map Prod.fst =
          (ht.table.map (List.map Prod.fst)).getD (hash k &&& ht.sizemask) [] := by
        simp [tableBucket, List.getD_eq_getElem?_getD, List.getElem?_map,
          List.getElem?_eq_getElem h]
      rw [h2]
      apply set_getD_self
      rw [List.length_map]
      exact h
    · rw [List.set_eq_of_length_le]
      rw [List.length_map]
      exact h
  calc (htEntries (htSetVal hash ht k v)).map Prod.fst
      = (((htSetVal hash ht k v).table).map (List.map Prod.fst)).flatten :=
        List.map_flatten _ _
    _ = ((ht.table.map (List.map Prod.fst)).set (hash k &&& ht.sizemask)
        ((bucketSetVal k v (tableBucket ht.table (hash k &&& ht.sizemask))).map Prod.fst)).flatten := by
        unfold htSetVal
        rw [List.map_set]
    _ = ((ht.table.map (List.map Prod.fst)).set (hash k &&& ht.sizemask)
        ((tableBucket ht.table (hash k &&& ht.sizemask)).map Prod.fst)).flatten := by
        rw [bucketSetVal_map_fst]
    _ = (ht.table.map (List.map Prod.fst)).flatten := by rw [hstep]
    _ = (htEntries ht).map Prod.fst := (List.map_flatten _ _).symm

theorem key_not_in_both_sym {hash : Key → Nat} {d : Dict} (hwf : WF hash d)
    {k : Key} {v : Val} (h1 : (k, v) ∈ htEntries d.ht1) :
    ∀ v', (k, v') ∉ htEntries d.ht0 := by
  intro v' h0
  exact key_not_in_both hwf h0 v h1

theorem dictSetValExisting_spec (hash : Key → Nat) (d : Dict) (k : Key)
    (v : Val) (hwf : WF hash d) (v0 : Val) (hex : (k, v0) ∈ dictEntriesL d) :
    WF hash (dictSetValExisting hash d k v) ∧
    (∀ q w, (q, w) ∈ dictEntriesL (dictSetValExisting hash d k v) ↔
      (if q = k then w = v else (q, w) ∈ dictEntriesL d)) ∧
    (dictEntriesL (dictSetValExisting hash d k v)).length =
      (dictEntriesL d).length := by
  unfold dictSetValExisting
  rcases List.mem_append.mp hex with h0 | h1
  · -- the entry lives in ht[0]
    have hfind0 : bucketFind k (tableBucket d.ht0.table (hash k &&& d.ht0.sizemask))
        = some (k, v0) := bucketFind_ht_of_mem hwf.1.2 (nodup_keys_ht0 hwf) h0
    rw [if_pos (by rw [hfind0]; rfl)]
    obtain ⟨hwfht, hmem, hlen⟩ :=
      setval_ht_spec hash d.ht0 k v (k, v0) hwf.1 (nodup_keys_ht0 hwf) hfind0
    have hkeys : dictKeysL { d with ht0 := htSetVal hash d.ht0 k v } = dictKeysL d := by
      unfold dictKeysL dictEntriesL
      simp only [List.map_append]
      rw [htSetVal_keys]
    have hmemD : ∀ q w, (q, w) ∈ dictEntriesL { d with ht0 := htSetVal hash d.ht0 k v } ↔
        (if q = k then w = v else (q, w) ∈ dictEntriesL d) := by
      intro q w
      unfold dictEntriesL
      simp only [List.mem_append]
      rw [hmem q w]
      by_cases hqk : q = k
      · subst hqk
        simp only [if_pos rfl]
        constructor
        · intro hc
          rcases hc with hc | hc
          · exact hc
          · exact absurd hc (key_not_in_both hwf h0 w)
        · intro hc
          exact Or.inl hc
      · simp only [if_neg hqk]
    refine ⟨⟨hwfht, hwf.2.1, ?_, ?_⟩, hmemD, ?_⟩
    · rcases hwf.2.2.1 with ⟨hn1, hn2, hn3⟩ | ⟨hr1, hr2, hr3, hr4⟩
      · exact Or.inl ⟨hn1, hn2, hn3⟩
      · refine Or.inr ⟨hr1, ?_, hr3, ?_⟩
        · unfold htSetVal
          simp only
          intro hc
          have hlen2 := congrArg List.length hc
          rw [List.length_set] at hlen2
          simp only [List.length_nil] at hlen2
          exact hr2 (List.length_eq_zero.mp hlen2)
        · intro j hj
          unfold htSetVal
          simp only
          rcases eq_or_ne j (hash k &&& d.ht0.sizemask) with rfl | hne
          · have hempty := hr4 _ hj
            rw [hempty] at hfind0
            simp [bucketFind] at hfind0
          · rw [tableBucket_set_ne _ _ (Ne.symm hne)]
            exact hr4 j hj
    · rw [hkeys]
      exact hwf.2.2.2
    · unfold dictEntriesL
      simp only [List.length_append]
      rw [hlen]
  · -- the entry lives in ht[1]
    have hnone0 : bucketFind k (tableBucket d.ht0.table (hash k &&& d.ht0.sizemask))
        = none := by
      rcases hf : bucketFind k (tableBucket d.ht0.table (hash k &&& d.ht0.sizemask)) with _ | e
      · rfl
      · obtain ⟨hm, hfst⟩ := bucketFind_ht_some hf
        obtain ⟨k0, ve⟩ := e
        simp only at hfst
        subst hfst
        exact absurd hm (key_not_in_both_sym hwf h1 ve)
    rw [if_neg (by rw [hnone0]; simp)]
    have hfind1 : bucketFind k (tableBucket d.ht1.table (hash k &&& d.ht1.sizemask))
        = some (k, v0) := bucketFind_ht_of_mem hwf.2.1.2 (nodup_keys_ht1 hwf) h1
    obtain ⟨hwfht, hmem, hlen⟩ :=
      setval_ht_spec hash d.ht1 k v (k, v0) hwf.2.1 (nodup_keys_ht1 hwf) hfind1
    have hkeys : dictKeysL { d with ht1 := htSetVal hash d.ht1 k v } = dictKeysL d := by
      unfold dictKeysL dictEntriesL
      simp only [List.map_append]
      rw [htSetVal_keys]
    have hmemD : ∀ q w, (q, w) ∈ dictEntriesL { d with ht1 := htSetVal hash d.ht1 k v } ↔
        (if q = k then w = v else (q, w) ∈ dictEntriesL d) := by
      intro q w
      unfold dictEntriesL
      simp only [List.mem_append]
      rw [hmem q w]
      by_cases hqk : q = k
      · subst hqk
        simp only [if_pos rfl]
        constructor
        · intro hc
          rcases hc with hc | hc
          · exact absurd hc (key_not_in_both_sym hwf h1 w)
          · exact hc
        · intro hc
          exact Or.inr hc
      · simp only [if_neg hqk]
    refine ⟨⟨hwf.1, hwfht, ?_, ?_⟩, hmemD, ?_⟩
    · rcases hwf.2.2.1 with ⟨hn1, hn2, hn3⟩ | ⟨hr1, hr2, hr3, hr4⟩
      · exfalso
        unfold htEntries at h1
        rw [hn2] at h1
        simp at h1
      · refine Or.inr ⟨hr1, hr2, ?_, hr4⟩
        unfold htSetVal
        simp only
        intro hc
        have hlen2 := congrArg List.length hc
        rw [List.length_set] at hlen2
        simp only [List.length_nil] at hlen2
        exact hr3 (List.length_eq_zero.mp hlen2)
    · rw [hkeys]
      exact hwf.2.2.2
    · unfold dictEntriesL
      simp only [List.length_append]
      rw [hlen]

/-! ### Deletion -/

theorem bucketRemove_sublist (k : Key) (b : Bucket) :
    (bucketRemove k b).Sublist b := by
  induction b with
  | nil => exact List.Sublist.refl _
  | cons he rest ih =>
    by_cases hk : he.1 = k
    · simp only [bucketRemove, if_pos hk]
      exact List.sublist_cons_self ..
    · simp only [bucketRemove, if_neg hk]
      exact ih.cons₂ he

/-- Unlinking the entry found in bucket `i` of one table. -/
theorem remove_ht_spec (hash : Key → Nat) (ht : Dictht) (k : Key) (i : Nat)
    (e : Key × Val) (hwfht : WFht hash ht)
    (hfind : bucketFind k (tableBucket ht.table i) = some e) :
    WFht hash { table := ht.table.set i (bucketRemove k (tableBucket ht.table i)),
                used := ht.used - 1 } ∧
    List.Perm
      (e :: htEntries { table := ht.table.set i (bucketRemove k (tableBucket ht.table i)),
                        used := ht.used - 1 })
      (htEntries ht) ∧
    (ht.table.set i (bucketRemove k (tableBucket ht.table i))).length = ht.table.length ∧
    (∀ j, j ≠ i →
      tableBucket (ht.table.set i (bucketRemove k (tableBucket ht.table i))) j =
        tableBucket ht.table j) := by
  set b := tableBucket ht.table i with hb
  have hlt : i < ht.table.length := by
    refine lt_length_of_tableBucket_ne ?_
    intro hc
    rw [hb, hc] at hfind
    simp [bucketFind] at hfind
  have hbperm : List.Perm b (e :: bucketRemove k b) := perm_cons_bucketRemove hfind
  have hflat : List.Perm
      (e :: htEntries { table := ht.table.set i (bucketRemove k b), used := ht.used - 1 })
      (htEntries ht) := by
    unfold htEntries
    simp only
    refine List.Perm.symm ?_
    refine (flatten_eq_bucket_append ht.table i hlt).trans ?_
    rw [← hb]
    refine (hbperm.append_right _).trans ?_
    rw [List.cons_append]
    refine List.Perm.cons e ?_
    exact (flatten_set_perm ht.table i hlt _).symm
  refine ⟨⟨?_, ?_⟩, hflat, List.length_set .., ?_⟩
  · have hu := hwfht.1
    unfold usedOK at hu ⊢
    show ht.used - 1 =
      (htEntries { table := ht.table.set i (bucketRemove k b), used := ht.used - 1 }).length
    have hl := hflat.length_eq
    simp only [List.length_cons] at hl
    omega
  · intro j q he
    have hmask : Dictht.sizemask
        { table := ht.table.set i (bucketRemove k b), used := ht.used - 1 }
        = ht.sizemask := by
      unfold Dictht.sizemask Dictht.size
      simp [List.length_set]
    simp only at he
    rcases eq_or_ne i j with rfl | hne
    · rw [tableBucket_set_self _ hlt] at he
      rw [hmask]
      exact hwfht.2 i q ((bucketRemove_sublist k b).mem he)
    · rw [tableBucket_set_ne _ _ hne] at he
      rw [hmask]
      exact hwfht.2 j q he
  · intro j hj
    exact tableBucket_set_ne _ _ (Ne.symm hj)

theorem mem_of_perm_cons_unique {l lp : List (Key × Val)} {e : Key × Val}
    {k : Key} (hperm : List.Perm (e :: lp) l)
    (hnd : (l.map Prod.fst).Nodup) (hek : e.1 = k) :
    ∀ q w, (q, w) ∈ lp ↔ (q ≠ k ∧ (q, w) ∈ l) := by
  have hknotin : k ∉ lp.map Prod.fst := by
    have hkeys := hperm.map Prod.fst
    have hnd2 := (hkeys.nodup_iff).mpr hnd
    simp only [List.map_cons, List.nodup_cons, hek] at hnd2
    exact hnd2.1
  intro q w
  constructor
  · intro hm
    refine ⟨?_, (hperm.mem_iff).mp (List.mem_cons_of_mem _ hm)⟩
    intro hqk
    subst hqk
    exact hknotin (List.mem_map.mpr ⟨(q, w), hm, rfl⟩)
  · intro ⟨hqk, hm⟩
    rcases List.mem_cons.mp ((hperm.mem_iff).mpr hm) with hqe | hlp
    · exfalso
      apply hqk
      have := congrArg Prod.fst hqe
      simpa [hek] using this
    · exact hlp

theorem dictGenericDelete_spec (hash : Key → Nat) (d : Dict) (k : Key)
    (hwf : WF hash d) :
    WF hash (dictGenericDelete hash d k).2 ∧
    (∀ q w, (q, w) ∈ dictEntriesL (dictGenericDelete hash d k).2 ↔
      (q ≠ k ∧ (q, w) ∈ dictEntriesL d)) ∧
    ((dictGenericDelete hash d k).1.isSome ↔ ∃ v, (k, v) ∈ dictEntriesL d) ∧
    (dictEntriesL (dictGenericDelete hash d k).2).length ≤
      (dictEntriesL d).length := by
  unfold dictGenericDelete
  by_cases hz : d.ht0.used = 0 ∧ d.ht1.used = 0
  · rw [if_pos hz]
    have he0 : htEntries d.ht0 = [] := htEntries_nil_of_used_zero hwf.1.1 hz.1
    have he1 : htEntries d.ht1 = [] := htEntries_nil_of_used_zero hwf.2.1.1 hz.2
    have hE : dictEntriesL d = [] := by
      unfold dictEntriesL
      rw [he0, he1]
      rfl
    refine ⟨hwf, ?_, ?_, le_refl _⟩
    · intro q w
      rw [hE]
      simp
    · rw [hE]
      simp
  · rw [if_neg hz]
    obtain ⟨hwf0, hperm0⟩ :
        WF hash (if dictIsRehashing d then dictRehashStep hash d else d) ∧
        List.Perm (dictEntriesL (if dictIsRehashing d then dictRehashStep hash d else d))
          (dictEntriesL d) := by
      by_cases hreh : dictIsRehashing d
      · rw [if_pos hreh]
        exact dictRehashStep_spec hash d hwf
      · rw [if_neg hreh]
        exact ⟨hwf, List.Perm.refl _⟩
    set d0 := if dictIsRehashing d then dictRehashStep hash d else d with hd0
    rcases hf0 : bucketFind k (tableBucket d0.ht0.table (hash k &&& d0.ht0.sizemask)) with _ | e0
    · -- not in ht[0] of the stepped dict
      have hnot0 : ∀ v, (k, v) ∉ htEntries d0.ht0 := bucketFind_ht_none hwf0.1.2 hf0
      simp only [hf0]
      by_cases hreh : dictIsRehashing d0
      · rw [if_neg (not_not_intro hreh)]
        rcases hf1 : bucketFind k (tableBucket d0.ht1.table (hash k &&& d0.ht1.sizemask)) with _ | e1
        · -- absent from both tables
          simp only [hf1]
          have hnot1 : ∀ v, (k, v) ∉ htEntries d0.ht1 := bucketFind_ht_none hwf0.2.1.2 hf1
          have hnotd : ∀ v, (k, v) ∉ dictEntriesL d := by
            intro v hv
            rcases List.mem_append.mp ((hperm0.mem_iff).mpr hv) with hm | hm
            · exact hnot0 v hm
            · exact hnot1 v hm
          refine ⟨hwf0, ?_, ?_, le_of_eq hperm0.length_eq⟩
          · intro q w
            rw [hperm0.mem_iff]
            by_cases hqk : q = k
            · subst hqk
              simp only [ne_eq, not_true_eq_false, false_and, iff_false]
              exact hnotd w
            · simp [hqk]
          · simp only [Option.isSome_none, Bool.false_eq_true, false_iff]
            intro hc
            obtain ⟨v, hv⟩ := hc
            exact hnotd v hv
        · -- unlink from ht[1]
          simp only [hf1]
          obtain ⟨hm1, hfst1⟩ := bucketFind_ht_some hf1
          obtain ⟨hwf1p, hperm1, hlen1, hbuk1⟩ :=
            remove_ht_spec hash d0.ht1 k _ e1 hwf0.2.1 hf1
          have hpermD : List.Perm (e1 :: dictEntriesL
              { d0 with ht1 := { table := d0.ht1.table.set (hash k &&& d0.ht1.sizemask) (bucketRemove k (tableBucket d0.ht1.table (hash k &&& d0.ht1.sizemask))), used := d0.ht1.used - 1 } })
              (dictEntriesL d0) := by
            unfold dictEntriesL
            simp only
            refine List.Perm.trans ?_ (hperm1.append_left (htEntries d0.ht0))
            exact List.perm_middle.symm
          have hmemI := mem_of_perm_cons_unique hpermD hwf0.2.2.2 hfst1
          refine ⟨?_, ?_, ?_, ?_⟩
          · obtain ⟨hge, ht0ne, ht1ne, hpre⟩ := rehashing_of_wf hwf0.2.2.1 hreh
            refine ⟨hwf0.1, hwf1p, Or.inr ⟨hge, ht0ne, ?_, hpre⟩, ?_⟩
            · simp only
              intro hc
              have hlen2 := congrArg List.length hc
              rw [hlen1] at hlen2
              simp only [List.length_nil] at hlen2
              exact ht1ne (List.length_eq_zero.mp hlen2)
            · have hkeysD := hpermD.map Prod.fst
              have hndD := (hkeysD.nodup_iff).mpr hwf0.2.2.2
              simp only [List.map_cons, List.nodup_cons] at hndD
              exact hndD.2
          · intro q w
            rw [hmemI q w, hperm0.mem_iff]
          · simp only [Option.isSome_some, true_iff]
            refine ⟨e1.2, ?_⟩
            have hm : (k, e1.2) ∈ dictEntriesL d0 := by
              rw [← hfst1]
              exact List.mem_append.mpr (Or.inr hm1)
            exact (hperm0.mem_iff).mp hm
          · have hl1 := hpermD.length_eq
            have hl0 := hperm0.length_eq
            simp only [List.length_cons] at hl1
            omega
      · -- not rehashing: only ht[0] is consulted, ht[1] is empty
        rw [if_pos hreh]
        have he1 : htEntries d0.ht1 = [] := by
          unfold htEntries
          rw [(ht1_empty_of_not_rehashing hwf0.2.2.1 hreh).1]
          rfl
        have hnotd : ∀ v, (k, v) ∉ dictEntriesL d := by
          intro v hv
          rcases List.mem_append.mp ((hperm0.mem_iff).mpr hv) with hm | hm
          · exact hnot0 v hm
          · rw [he1] at hm
            simp at hm
        refine ⟨hwf0, ?_, ?_, le_of_eq hperm0.length_eq⟩
        · intro q w
          rw [hperm0.mem_iff]
          by_cases hqk : q = k
          · subst hqk
            simp only [ne_eq, not_true_eq_false, false_and, iff_false]
            exact hnotd w
          · simp [hqk]
        · simp only [Option.isSome_none, Bool.false_eq_true, false_iff]
          intro hc
          obtain ⟨v, hv⟩ := hc
          exact hnotd v hv
    · -- unlink from ht[0]
      simp only [hf0]
      obtain ⟨hm0, hfst0⟩ := bucketFind_ht_some hf0
      obtain ⟨hwf0p, hperm1, hlen1, hbuk1⟩ :=
        remove_ht_spec hash d0.ht0 k _ e0 hwf0.1 hf0
      have hpermD : List.Perm (e0 :: dictEntriesL
          { d0 with ht0 := { table := d0.ht0.table.set (hash k &&& d0.ht0.sizemask) (bucketRemove k (tableBucket d0.ht0.table (hash k &&& d0.ht0.sizemask))), used := d0.ht0.used - 1 } })
          (dictEntriesL d0) := by
        unfold dictEntriesL
        simp only
        refine List.Perm.trans ?_ (hperm1.append_right (htEntries d0.ht1))
        rw [List.cons_append]
      have hmemI := mem_of_perm_cons_unique hpermD hwf0.2.2.2 hfst0
      refine ⟨?_, ?_, ?_, ?_⟩
      · refine ⟨hwf0p, hwf0.2.1, ?_, ?_⟩
        · rcases hwf0.2.2.1 with ⟨hn1, hn2, hn3⟩ | ⟨hr1, hr2, hr3, hr4⟩
          · exact Or.inl ⟨hn1, hn2, hn3⟩
          · refine Or.inr ⟨hr1, ?_, hr3, ?_⟩
            · simp only
              intro hc
              have hlen2 := congrArg List.length hc
              rw [hlen1] at hlen2
              simp only [List.length_nil] at hlen2
              exact hr2 (List.length_eq_zero.mp hlen2)
            · intro j hj
              simp only
              rcases eq_or_ne j (hash k &&& d0.ht0.sizemask) with rfl | hne
              · have hempty := hr4 _ hj
                rw [hempty] at hf0
                simp [bucketFind] at hf0
              · rw [hbuk1 j hne]
                exact hr4 j hj
        · have hkeysD := hpermD.map Prod.fst
          have hndD := (hkeysD.nodup_iff).mpr hwf0.2.2.2
          simp only [List.map_cons, List.nodup_cons] at hndD
          exact hndD.2
      · intro q w
        rw [hmemI q w, hperm0.mem_iff]
      · simp only [Option.isSome_some, true_iff]
        refine ⟨e0.2, ?_⟩
        have hm : (k, e0.2) ∈ dictEntriesL d0 := by
          rw [← hfst0]
          exact List.mem_append.mpr (Or.inl hm0)
        exact (hperm0.mem_iff).mp hm
      · have hl1 := hpermD.length_eq
        have hl0 := hperm0.length_eq
        simp only [List.length_cons] at hl1
        omega

/-! ### Lookup -/

theorem dictFind_spec (hash : Key → Nat) (d : Dict) (k : Key)
    (hwf : WF hash d) :
    WF hash (dictFind hash d k).1 ∧
    List.Perm (dictEntriesL (dictFind hash d k).1) (dictEntriesL d) ∧
    (∀ v, (dictFind hash d k).2 = some (k, v) ↔ (k, v) ∈ dictEntriesL d) ∧
    ((dictFind hash d k).2 = none ↔ ∀ v, (k, v) ∉ dictEntriesL d) ∧
    (∀ e, (dictFind hash d k).2 = some e → e.1 = k) := by
  unfold dictFind
  by_cases hz : d.ht0.used + d.ht1.used = 0
  · rw [if_pos hz]
    have he0 : htEntries d.ht0 = [] := htEntries_nil_of_used_zero hwf.1.1 (by omega)
    have he1 : htEntries d.ht1 = [] := htEntries_nil_of_used_zero hwf.2.1.1 (by omega)
    have hE : dictEntriesL d = [] := by
      unfold dictEntriesL
      rw [he0, he1]
      rfl
    refine ⟨hwf, List.Perm.refl _, ?_, ?_, ?_⟩
    · intro v
      rw [hE]
      simp
    · rw [hE]
      simp
    · intro e he
      exact Option.noConfusion he
  · rw [if_neg hz]
    obtain ⟨hwf0, hperm0⟩ :
        WF hash (if dictIsRehashing d then dictRehashStep hash d else d) ∧
        List.Perm (dictEntriesL (if dictIsRehashing d then dictRehashStep hash d else d))
          (dictEntriesL d) := by
      by_cases hreh : dictIsRehashing d
      · rw [if_pos hreh]
        exact dictRehashStep_spec hash d hwf
      · rw [if_neg hreh]
        exact ⟨hwf, List.Perm.refl _⟩
    set d0 := if dictIsRehashing d then dictRehashStep hash d else d with hd0
    have hmemd : ∀ q : Key × Val, q ∈ dictEntriesL d0 ↔ q ∈ dictEntriesL d :=
      fun q => hperm0.mem_iff
    rcases hf0 : bucketFind k (tableBucket d0.ht0.table (hash k &&& d0.ht0.sizemask)) with _ | e0
    · have hnot0 : ∀ v, (k, v) ∉ htEntries d0.ht0 := bucketFind_ht_none hwf0.1.2 hf0
      simp only [hf0]
      by_cases hreh : dictIsRehashing d0
      · rw [if_neg (not_not_intro hreh)]
        refine ⟨hwf0, hperm0, ?_, ?_, ?_⟩
        · intro v
          constructor
          · intro hv
            obtain ⟨hm, hfst⟩ := bucketFind_ht_some hv
            exact (hmemd _).mp (List.mem_append.mpr (Or.inr hm))
          · intro hv
            rcases List.mem_append.mp ((hmemd _).mpr hv) with hm | hm
            · exact absurd hm (hnot0 v)
            · exact bucketFind_ht_of_mem hwf0.2.1.2 (nodup_keys_ht1 hwf0) hm
        · constructor
          · intro hv v hm
            rcases List.mem_append.mp ((hmemd _).mpr hm) with h2 | h2
            · exact hnot0 v h2
            · rw [bucketFind_ht_of_mem hwf0.2.1.2 (nodup_keys_ht1 hwf0) h2] at hv
              exact Option.noConfusion hv
          · intro hv
            rcases hf1 : bucketFind k (tableBucket d0.ht1.table (hash k &&& d0.ht1.sizemask)) with _ | e1
            · rfl
            · obtain ⟨hm, hfst⟩ := bucketFind_ht_some hf1
              exfalso
              refine hv e1.2 ?_
              refine (hmemd _).mp (List.mem_append.mpr (Or.inr ?_))
              rw [← hfst]
              exact hm
        · intro e he
          exact (bucketFind_ht_some he).2
      · rw [if_pos hreh]
        have he1 : htEntries d0.ht1 = [] := by
          unfold htEntries
          rw [(ht1_empty_of_not_rehashing hwf0.2.2.1 hreh).1]
          rfl
        have hnotd : ∀ v, (k, v) ∉ dictEntriesL d := by
          intro v hv
          rcases List.mem_append.mp ((hmemd _).mpr hv) with hm | hm
          · exact hnot0 v hm
          · rw [he1] at hm
            simp at hm
        refine ⟨hwf0, hperm0, ?_, ?_, ?_⟩
        · intro v
          simp only [false_iff]
          constructor
          · intro hc
            exact Option.noConfusion hc
          · intro hc
            exact absurd hc (hnotd v)
        · simp only [true_iff]
          exact fun v => hnotd v
        · intro e he
          exact Option.noConfusion he
    · simp only [hf0]
      obtain ⟨hm0, hfst0⟩ := bucketFind_ht_some hf0
      have hmd : e0 ∈ dictEntriesL d := (hmemd _).mp (List.mem_append.mpr (Or.inl hm0))
      have hmd2 : (k, e0.2) ∈ dictEntriesL d := by
        have heta : e0 = (k, e0.2) := by
          rw [← hfst0]
        rw [← heta]
        exact hmd
      refine ⟨hwf0, hperm0, ?_, ?_, ?_⟩
      · intro v
        constructor
        · intro hv
          simp only [Option.some.injEq] at hv
          rw [← hv]
          exact hmd
        · intro hv
          have hvq := mem_unique_of_nodup_keys hwf.2.2.2 hv hmd2
          rw [hvq]
          simp only [Option.some.injEq]
          rw [← hfst0]
      · constructor
        · intro hc
          exact Option.noConfusion hc
        · intro hc
          exact absurd hmd2 (hc e0.2)
      · intro e he
        simp only [Option.some.injEq] at he
        rw [← he]
        exact hfst0

/-! ### Refinement: the dictionary implements a finite map -/

/-- Functional update of the abstract map. -/
def mupdate (m : Key → Option Val) (k : Key) (v : Val) : Key → Option Val :=
  fun q => if q = k then some v else m q

/-- Functional removal from the abstract map. -/
def mremove (m : Key → Option Val) (k : Key) : Key → Option Val :=
  fun q => if q = k then none else m q

/-- `d` is a well-formed dictionary storing exactly the graph of `m`. -/
def Represents (hash : Key → Nat) (d : Dict) (m : Key → Option Val) : Prop :=
  WF hash d ∧ ∀ k v, m k = some v ↔ (k, v) ∈ dictEntriesL d

theorem Represents_absent {hash : Key → Nat} {d : Dict} {m : Key → Option Val}
    (h : Represents hash d m) (k : Key) :
    m k = none ↔ ∀ v, (k, v) ∉ dictEntriesL d := by
  constructor
  · intro hn v hv
    have := (h.2 k v).mpr hv
    rw [hn] at this
    exact Option.noConfusion this
  · intro hn
    rcases hm : m k with _ | v
    · rfl
    · exact absurd ((h.2 k v).mp hm) (hn v)

theorem Represents_of_perm {hash : Key → Nat} {d d' : Dict}
    {m : Key → Option Val} (h : Represents hash d m) (hwf : WF hash d')
    (hperm : List.Perm (dictEntriesL d') (dictEntriesL d)) :
    Represents hash d' m := by
  refine ⟨hwf, ?_⟩
  intro k v
  rw [h.2 k v]
  exact (hperm.mem_iff).symm

theorem Represents_dictCreate (hash : Key → Nat) :
    Represents hash dictCreate (fun _ => none) := by
  refine ⟨WF_dictCreate hash, ?_⟩
  intro k v
  simp [dictEntriesL, htEntries, dictCreate, dictReset]

theorem mupdate_iff_cons {m : Key → Option Val} {k : Key} {v : Val}
    {l : List (Key × Val)}
    (hm : ∀ q w, m q = some w ↔ (q, w) ∈ l) (hnot : ∀ w, (k, w) ∉ l) :
    ∀ q w, mupdate m k v q = some w ↔ (q, w) ∈ (k, v) :: l := by
  intro q w
  unfold mupdate
  by_cases hqk : q = k
  · subst hqk
    rw [if_pos rfl]
    constructor
    · intro hw
      rw [Option.some.injEq] at hw
      subst hw
      exact List.mem_cons_self ..
    · intro hw
      rcases List.mem_cons.mp hw with hw | hw
      · rw [Option.some.injEq]
        exact (((Prod.mk.injEq ..).mp hw).2).symm
      · exact absurd hw (hnot w)
  · rw [if_neg hqk]
    rw [hm q w]
    constructor
    · exact fun hw => List.mem_cons_of_mem _ hw
    · intro hw
      rcases List.mem_cons.mp hw with hw | hw
      · exact absurd ((Prod.mk.injEq ..).mp hw).1 hqk
      · exact hw

/-- `dictAdd` refines "insert if absent". -/
theorem dictAdd_represents (hash : Key → Nat) (cr : Bool) (d : Dict) (k : Key)
    (v : Val) (m : Key → Option Val) (h : Represents hash d m) :
    Represents hash (dictAdd hash cr d k v).2
      (if (dictAdd hash cr d k v).1 = DICT_OK then mupdate m k v else m) ∧
    ((dictEntriesL d).length ≤ 2 ^ 61 →
      ((dictAdd hash cr d k v).1 = DICT_OK ↔ m k = none)) ∧
    (dictEntriesL (dictAdd hash cr d k v).2).length ≤
      (dictEntriesL d).length + 1 := by
  obtain ⟨hwfR, hsome, hnone, hexist, herr⟩ := dictAddRaw_spec hash cr d k v h.1
  unfold dictAdd
  rcases hae : (dictAddRaw hash cr d k v).entry with _ | e
  · simp only [hae]
    have hperm := hnone hae
    refine ⟨?_, ?_, le_trans (le_of_eq hperm.length_eq) (Nat.le_succ _)⟩
    · rw [if_neg (by decide)]
      exact Represents_of_perm h hwfR hperm
    · intro hlen
      constructor
      · intro hc
        exact absurd hc (by decide)
      · intro hmk
        exfalso
        rcases hex : (dictAddRaw hash cr d k v).existing with _ | e
        · -- both `entry` and `existing` are null: the expand policy failed,
          -- impossible on a table of this size
          have herr2 := herr hae hex
          have hstep := dictRehashStep_spec hash d h.1
          obtain ⟨hwf0, hperm0⟩ :
              WF hash (if dictIsRehashing d then dictRehashStep hash d else d) ∧
              List.Perm (dictEntriesL (if dictIsRehashing d then dictRehashStep hash d else d))
                (dictEntriesL d) := by
            by_cases hreh : dictIsRehashing d
            · rw [if_pos hreh]
              exact hstep
            · rw [if_neg hreh]
              exact ⟨h.1, List.Perm.refl _⟩
          have hused : (if dictIsRehashing d then dictRehashStep hash d else d).ht0.used ≤ 2 ^ 61 := by
            have hu := hwf0.1.1
            unfold usedOK at hu
            have hle : (htEntries (if dictIsRehashing d then dictRehashStep hash d else d).ht0).length ≤
                (dictEntriesL (if dictIsRehashing d then dictRehashStep hash d else d)).length := by
              unfold dictEntriesL
              rw [List.length_append]
              omega
            have := hperm0.length_eq
            omega
          exact dictExpandIfNeeded_no_err hash cr _ hwf0 hused herr2
        · obtain ⟨hfst, ⟨v0, hv0⟩, _⟩ := hexist e hex
          have := (h.2 k v0).mpr hv0
          rw [hmk] at this
          exact Option.noConfusion this
  · simp only [hae]
    obtain ⟨rfl, hperm, hnot, _, _⟩ := hsome e hae
    have hmknone : m k = none := (Represents_absent h k).mpr hnot
    refine ⟨?_, ?_, ?_⟩
    · rw [if_pos trivial]
      refine ⟨hwfR, ?_⟩
      intro q w
      rw [hperm.mem_iff]
      exact mupdate_iff_cons (fun q w => h.2 q w) hnot q w
    · intro _
      simp [hmknone]
    · rw [hperm.length_eq]
      simp

/-- `dictReplace` refines unconditional update. -/
theorem dictReplace_represents (hash : Key → Nat) (cr : Bool) (d : Dict)
    (k : Key) (v : Val) (m : Key → Option Val) (h : Represents hash d m)
    (hlen : (dictEntriesL d).length ≤ 2 ^ 61) :
    Represents hash (dictReplace hash cr d k v).2 (mupdate m k v) ∧
    (dictEntriesL (dictReplace hash cr d k v).2).length ≤
      (dictEntriesL d).length + 1 := by
  obtain ⟨hwfR, hsome, hnone, hexist, herr⟩ := dictAddRaw_spec hash cr d k v h.1
  unfold dictReplace
  rcases hae : (dictAddRaw hash cr d k v).entry with _ | e
  · simp only [hae]
    rcases hex : (dictAddRaw hash cr d k v).existing with _ | e
    · exfalso
      have herr2 := herr hae hex
      obtain ⟨hwf0, hperm0⟩ :
          WF hash (if dictIsRehashing d then dictRehashStep hash d else d) ∧
          List.Perm (dictEntriesL (if dictIsRehashing d then dictRehashStep hash d else d))
            (dictEntriesL d) := by
        by_cases hreh : dictIsRehashing d
        · rw [if_pos hreh]
          exact dictRehashStep_spec hash d h.1
        · rw [if_neg hreh]
          exact ⟨h.1, List.Perm.refl _⟩
      have hused : (if dictIsRehashing d then dictRehashStep hash d else d).ht0.used ≤ 2 ^ 61 := by
        have hu := hwf0.1.1
        unfold usedOK at hu
        have hle : (htEntries (if dictIsRehashing d then dictRehashStep hash d else d).ht0).length ≤
            (dictEntriesL (if dictIsRehashing d then dictRehashStep hash d else d)).length := by
          unfold dictEntriesL
          rw [List.length_append]
          omega
        have := hperm0.length_eq
        omega
      exact dictExpandIfNeeded_no_err hash cr _ hwf0 hused herr2
    · simp only [hex]
      obtain ⟨hfst, ⟨v0, hv0⟩, _⟩ := hexist e hex
      have hperm := hnone hae
      have hv0R : (k, v0) ∈ dictEntriesL (dictAddRaw hash cr d k v).d :=
        (hperm.mem_iff).mpr hv0
      obtain ⟨hwfS, hmemS, hlenS⟩ :=
        dictSetValExisting_spec hash (dictAddRaw hash cr d k v).d k v hwfR v0 hv0R
      refine ⟨⟨hwfS, ?_⟩, ?_⟩
      · intro q w
        rw [hmemS q w]
        unfold mupdate
        by_cases hqk : q = k
        · subst hqk
          rw [if_pos rfl, if_pos rfl]
          constructor
          · intro hw
            rw [Option.some.injEq] at hw
            exact hw.symm
          · intro hw
            rw [Option.some.injEq]
            exact hw.symm
        · rw [if_neg hqk, if_neg hqk]
          rw [h.2 q w]
          exact (hperm.mem_iff).symm
      · rw [hlenS, hperm.length_eq]
        omega
  · simp only [hae]
    obtain ⟨rfl, hperm, hnot, _, _⟩ := hsome e hae
    refine ⟨⟨hwfR, ?_⟩, ?_⟩
    · intro q w
      rw [hperm.mem_iff]
      exact mupdate_iff_cons (fun q w => h.2 q w) hnot q w
    · rw [hperm.length_eq]
      simp

/-- `dictDelete` refines removal. -/
theorem dictDelete_represents (hash : Key → Nat) (d : Dict) (k : Key)
    (m : Key → Option Val) (h : Represents hash d m) :
    Represents hash (dictDelete hash d k).2 (mremove m k) ∧
    ((dictDelete hash d k).1 = DICT_OK ↔ m k ≠ none) ∧
    (dictEntriesL (dictDelete hash d k).2).length ≤ (dictEntriesL d).length := by
  obtain ⟨hwfD, hmemD, hfound, hlenD⟩ := dictGenericDelete_spec hash d k h.1
  unfold dictDelete
  refine ⟨⟨hwfD, ?_⟩, ?_, hlenD⟩
  · intro q w
    rw [hmemD q w]
    unfold mremove
    by_cases hqk : q = k
    · subst hqk
      simp
    · simp only [if_neg hqk, ne_eq]
      rw [h.2 q w]
      simp [hqk]
  · show (if (dictGenericDelete hash d k).1.isSome then DICT_OK else DICT_ERR)
        = DICT_OK ↔ m k ≠ none
    by_cases hs : (dictGenericDelete hash d k).1.isSome
    · rw [if_pos hs]
      obtain ⟨v, hv⟩ := hfound.mp hs
      have hmk : m k = some v := (h.2 k v).mpr hv
      refine iff_of_true rfl ?_
      rw [hmk]
      simp
    · rw [if_neg hs]
      refine iff_of_false (by decide) ?_
      intro hc
      rcases hm2 : m k with _ | v
      · exact hc hm2
      · exact hs (hfound.mpr ⟨v, (h.2 k v).mp hm2⟩)

/-- `dictFind` returns exactly the abstract map's value (and only rehashes
as a side effect). -/
theorem dictFind_represents (hash : Key → Nat) (d : Dict) (k : Key)
    (m : Key → Option Val) (h : Represents hash d m) :
    Represents hash (dictFind hash d k).1 m ∧
    ((dictFind hash d k).2).map Prod.snd = m k ∧
    (dictEntriesL (dictFind hash d k).1).length = (dictEntriesL d).length := by
  obtain ⟨hwfF, hpermF, hsomeF, hnoneF, hfstF⟩ := dictFind_spec hash d k h.1
  refine ⟨Represents_of_perm h hwfF hpermF, ?_, hpermF.length_eq⟩
  rcases hm : m k with _ | v
  · rw [hnoneF.mpr ((Represents_absent h k).mp hm)]
    rfl
  · rw [(hsomeF v).mpr ((h.2 k v).mp hm)]
    rfl

/-! ### Sequences of operations -/

/-- One public mutating/looking operation, with the value of the global
`dict_can_resize` flag at the time of the call. -/
inductive DictOp
  | insert (canResize : Bool) (k : Key) (v : Val)
  | upsert (canResize : Bool) (k : Key) (v : Val)
  | remove (k : Key)
  | lookup (k : Key)
deriving DecidableEq, Repr

/-- Run one operation on the concrete dictionary (`dictAdd`, `dictReplace`,
`dictDelete`, `dictFind`). -/
def applyOp (hash : Key → Nat) : DictOp → Dict → Dict
  | DictOp.insert cr k v, d => (dictAdd hash cr d k v).2
  | DictOp.upsert cr k v, d => (dictReplace hash cr d k v).2
  | DictOp.remove k, d => (dictDelete hash d k).2
  | DictOp.lookup k, d => (dictFind hash d k).1

def runOps (hash : Key → Nat) : List DictOp → Dict → Dict
  | [], d => d
  | op :: rest, d => runOps hash rest (applyOp hash op d)

/-- The abstract map semantics of one operation: insert fails on a present
key, upsert overwrites, remove deletes, lookup changes nothing. -/
def specApply : DictOp → (Key → Option Val) → (Key → Option Val)
  | DictOp.insert _ k v, m => if m k = none then mupdate m k v else m
  | DictOp.upsert _ k v, m => mupdate m k v
  | DictOp.remove k, m => mremove m k
  | DictOp.lookup _, m => m

def specRun : List DictOp → (Key → Option Val) → (Key → Option Val)
  | [], m => m
  | op :: rest, m => specRun rest (specApply op m)

theorem runOps_represents (hash : Key → Nat) (ops : List DictOp) (d : Dict)
    (m : Key → Option Val) (h : Represents hash d m)
    (hlen : (dictEntriesL d).length + ops.length ≤ 2 ^ 61) :
    Represents hash (runOps hash ops d) (specRun ops m) := by
  induction ops generalizing d m with
  | nil => exact h
  | cons op rest ih =>
    have hlend : (dictEntriesL d).length ≤ 2 ^ 61 := by
      simp only [List.length_cons] at hlen
      omega
    show Represents hash (runOps hash rest (applyOp hash op d))
      (specRun rest (specApply op m))
    cases op with
    | insert cr k v =>
      obtain ⟨hrep, hok, hle⟩ := dictAdd_represents hash cr d k v m h
      have hok2 := hok hlend
      have hrep2 : Represents hash (applyOp hash (DictOp.insert cr k v) d)
          (specApply (DictOp.insert cr k v) m) := by
        show Represents hash (dictAdd hash cr d k v).2
          (if m k = none then mupdate m k v else m)
        by_cases hmk : m k = none
        · rw [if_pos hmk]
          rw [if_pos (hok2.mpr hmk)] at hrep
          exact hrep
        · rw [if_neg hmk]
          rw [if_neg (fun hc => hmk (hok2.mp hc))] at hrep
          exact hrep
      refine ih _ _ hrep2 ?_
      simp only [List.length_cons] at hlen
      have : (dictEntriesL (applyOp hash (DictOp.insert cr k v) d)).length ≤
          (dictEntriesL d).length + 1 := hle
      omega
    | upsert cr k v =>
      obtain ⟨hrep, hle⟩ := dictReplace_represents hash cr d k v m h hlend
      refine ih _ _ hrep ?_
      simp only [List.length_cons] at hlen
      have : (dictEntriesL (applyOp hash (DictOp.upsert cr k v) d)).length ≤
          (dictEntriesL d).length + 1 := hle
      omega
    | remove k =>
      obtain ⟨hrep, _, hle⟩ := dictDelete_represents hash d k m h
      refine ih _ _ hrep ?_
      simp only [List.length_cons] at hlen
      have : (dictEntriesL (applyOp hash (DictOp.remove k) d)).length ≤
          (dictEntriesL d).length := hle
      omega
    | lookup k =>
      obtain ⟨hrep, _, hle⟩ := dictFind_represents hash d k m h
      refine ih _ _ hrep ?_
      simp only [List.length_cons] at hlen
      have : (dictEntriesL (applyOp hash (DictOp.lookup k) d)).length =
          (dictEntriesL d).length := hle
      omega

/-- C1: for every sequence of insert (`dictAdd`), upsert (`dictReplace`) and
remove (`dictDelete`) operations — interleaved with lookups, each call seeing
an arbitrary value of the global resize flag, so incremental rehashes start
and proceed freely during the sequence — and for every key `k`, `dictFind`
returns exactly the value most recently associated with `k` by the sequence
(`specRun`, the reference map semantics where insert fails on a present key,
upsert overwrites and remove deletes), and `none` if `k` was never inserted
or was removed after its last insertion.  The length bound only keeps the
table below the `LONG_MAX` allocation limit (2^63), far beyond any real
sequence. -/
theorem dictFind_after_ops (hash : Key → Nat) (ops : List DictOp) (k : Key)
    (hlen : ops.length ≤ 2 ^ 60) :
    ((dictFind hash (runOps hash ops dictCreate) k).2).map Prod.snd
      = specRun ops (fun _ => none) k := by
  have hE : (dictEntriesL dictCreate).length = 0 := rfl
  have hlen2 : (dictEntriesL dictCreate).length + ops.length ≤ 2 ^ 61 := by
    rw [hE, Nat.zero_add]
    exact hlen.trans (Nat.pow_le_pow_right (by norm_num) (by norm_num))
  have hrep := runOps_represents hash ops dictCreate _
    (Represents_dictCreate hash) hlen2
  exact (dictFind_represents hash _ k _ hrep).2.1

theorem dictFind_after_ops_witness :
    ([DictOp.insert true 1 10, DictOp.upsert true 1 20, DictOp.remove 1,
      DictOp.insert false 2 5, DictOp.insert false 1 7] : List DictOp).length
        ≤ 2 ^ 60 ∧
    ((dictFind (fun n => n) (runOps (fun n => n)
        [DictOp.insert true 1 10, DictOp.upsert true 1 20, DictOp.remove 1,
         DictOp.insert false 2 5, DictOp.insert false 1 7] dictCreate) 1).2).map
        Prod.snd
      = specRun [DictOp.insert true 1 10, DictOp.upsert true 1 20,
          DictOp.remove 1, DictOp.insert false 2 5, DictOp.insert false 1 7]
          (fun _ => none) 1 :=
  ⟨by norm_num, dictFind_after_ops (fun n => n) _ 1 (by norm_num)⟩

/-! ### Reachable states -/

/-- Dictionary states reachable from `dictCreate` by the public operations
(the global resize flag may change arbitrarily between calls). -/
inductive Reach (hash : Key → Nat) : Dict → Prop
  | init : Reach hash dictCreate
  | add (cr : Bool) (k : Key) (v : Val) {d : Dict} :
      Reach hash d → Reach hash (dictAdd hash cr d k v).2
  | replace (cr : Bool) (k : Key) (v : Val) {d : Dict} :
      Reach hash d → Reach hash (dictReplace hash cr d k v).2
  | del (k : Key) {d : Dict} : Reach hash d → Reach hash (dictDelete hash d k).2
  | find (k : Key) {d : Dict} : Reach hash d → Reach hash (dictFind hash d k).1
  | expand (size : Nat) {d : Dict} :
      Reach hash d → Reach hash (dictExpand d size).2
  | resize (cr : Bool) {d : Dict} :
      Reach hash d → Reach hash (dictResize cr d).2
  | rehash (n : Nat) {d : Dict} :
      Reach hash d → Reach hash (dictRehash hash d n).2

theorem dictAdd_snd (hash : Key → Nat) (cr : Bool) (d : Dict) (k : Key)
    (v : Val) : (dictAdd hash cr d k v).2 = (dictAddRaw hash cr d k v).d := by
  unfold dictAdd
  rcases hae : (dictAddRaw hash cr d k v).entry with _ | e <;> simp [hae]

theorem dictReplace_wf (hash : Key → Nat) (cr : Bool) (d : Dict) (k : Key)
    (v : Val) (hwf : WF hash d) : WF hash (dictReplace hash cr d k v).2 := by
  obtain ⟨hwfR, hsome, hnone, hexist, herr⟩ := dictAddRaw_spec hash cr d k v hwf
  unfold dictReplace
  rcases hae : (dictAddRaw hash cr d k v).entry with _ | e
  · simp only [hae]
    rcases hex : (dictAddRaw hash cr d k v).existing with _ | e
    · exact hwfR
    · obtain ⟨hfst, ⟨v0, hv0⟩, _⟩ := hexist e hex
      have hperm := hnone hae
      exact (dictSetValExisting_spec hash _ k v hwfR v0 ((hperm.mem_iff).mpr hv0)).1
  · simp only [hae]
    exact hwfR

/-- Every reachable dictionary is well-formed. -/
theorem Reach_wf (hash : Key → Nat) {d : Dict} (h : Reach hash d) :
    WF hash d := by
  induction h with
  | init => exact WF_dictCreate hash
  | add cr k v _ ih =>
    rw [dictAdd_snd]
    exact (dictAddRaw_spec hash cr _ k v ih).1
  | replace cr k v _ ih => exact dictReplace_wf hash cr _ k v ih
  | del k _ ih => exact (dictGenericDelete_spec hash _ k ih).1
  | find k _ ih => exact (dictFind_spec hash _ k ih).1
  | expand size _ ih => exact (dictExpand_spec hash _ size ih).1
  | resize cr _ ih =>
    unfold dictResize
    rename_i d0 _
    by_cases hg : ¬(cr : Prop) ∨ dictIsRehashing d0
    · rw [if_pos hg]
      exact ih
    · rw [if_neg hg]
      exact (dictExpand_spec hash d0 _ ih).1
  | rehash n _ ih => exact (dictRehash_spec hash _ n ih).1

/-- When no rehash is in progress, `dictFind` performs no rehash step and
consults only the `ht[0]` bucket. -/
theorem dictFind_not_rehashing (hash : Key → Nat) (d : Dict) (k : Key)
    (hwf : WF hash d) (hnr : d.rehashidx = -1) :
    dictFind hash d k =
      (d, bucketFind k (tableBucket d.ht0.table (hash k &&& d.ht0.sizemask))) := by
  have hnreh : ¬dictIsRehashing d := by
    unfold dictIsRehashing
    simp [hnr]
  unfold dictFind
  by_cases hz : d.ht0.used + d.ht1.used = 0
  · rw [if_pos hz]
    have hb : tableBucket d.ht0.table (hash k &&& d.ht0.sizemask) = [] := by
      have he0 : htEntries d.ht0 = [] := htEntries_nil_of_used_zero hwf.1.1 (by omega)
      have hsub := tableBucket_sublist_flatten d.ht0.table (hash k &&& d.ht0.sizemask)
      unfold htEntries at he0
      rw [he0] at hsub
      exact List.sublist_nil.mp hsub
    rw [hb]
    rfl
  · rw [if_neg hz]
    simp only [if_neg hnreh]
    rcases hf : bucketFind k (tableBucket d.ht0.table (hash k &&& d.ht0.sizemask)) with _ | e
    · simp only [hf]
      rw [if_pos hnreh]
    · simp only [hf]

/-- C2: in every dictionary state reachable by the public operations:
if `rehashidx = -1` (not rehashing) then `ht[1]` is unallocated and empty and
`dictFind` consults only the `ht[0]` bucket (it even returns the state
untouched); if `rehashidx ≥ 0` (rehashing) then every bucket of `ht[0]` at
an index below `rehashidx` is empty, a lookup consults both tables (every
entry stored in either `ht[0]` or `ht[1]` is found), and an insert performed
while the rehash is still in progress afterwards places the new entry into
`ht[1]` (and into `ht[0]` once the rehash has completed). -/
theorem dict_rehash_invariant (hash : Key → Nat) (d : Dict)
    (hreach : Reach hash d) :
    (d.rehashidx = -1 →
      d.ht1.table = [] ∧ d.ht1.used = 0 ∧
      ∀ k, dictFind hash d k =
        (d, bucketFind k (tableBucket d.ht0.table (hash k &&& d.ht0.sizemask)))) ∧
    (0 ≤ d.rehashidx →
      (∀ i : Nat, (i : Int) < d.rehashidx → tableBucket d.ht0.table i = []) ∧
      (∀ k v, (k, v) ∈ htEntries d.ht0 ∨ (k, v) ∈ htEntries d.ht1 →
        (dictFind hash d k).2 = some (k, v)) ∧
      (∀ cr k v e, (dictAddRaw hash cr d k v).entry = some e →
        (dictIsRehashing (dictAddRaw hash cr d k v).d →
          e ∈ htEntries (dictAddRaw hash cr d k v).d.ht1) ∧
        (¬dictIsRehashing (dictAddRaw hash cr d k v).d →
          e ∈ htEntries (dictAddRaw hash cr d k v).d.ht0))) := by
  have hwf : WF hash d := Reach_wf hash hreach
  constructor
  · intro hidx
    rcases hwf.2.2.1 with ⟨_, ht1t, ht1u⟩ | ⟨hge, _⟩
    · exact ⟨ht1t, ht1u, fun k => dictFind_not_rehashing hash d k hwf hidx⟩
    · rw [hidx] at hge
      exact absurd hge (by decide)
  · intro hge
    refine ⟨?_, ?_, ?_⟩
    · rcases hwf.2.2.1 with ⟨hidx, _⟩ | ⟨_, _, _, hpre⟩
      · rw [hidx] at hge
        exact absurd hge (by decide)
      · exact hpre
    · intro k v hmem
      exact ((dictFind_spec hash d k hwf).2.2.1 v).mpr
        (by unfold dictEntriesL; rw [List.mem_append]; exact hmem)
    · intro cr k v e hae
      obtain ⟨_, hsome, _⟩ := dictAddRaw_spec hash cr d k v hwf
      obtain ⟨_, _, _, h1, h0⟩ := hsome e hae
      exact ⟨h1, h0⟩

theorem dict_rehash_invariant_witness :
    dictCreate.ht1.table = [] ∧ dictCreate.ht1.used = 0 := by
  have h := dict_rehash_invariant (fun n => n) dictCreate Reach.init
  exact ⟨(h.1 rfl).1, (h.1 rfl).2.1⟩

/-! ### The grow policy -/

/-- Modelled from the spec: `m` is the smallest power of two greater than or
equal to `n`.  Used to compare the spec's claimed grow size against the
code's `_dictNextPower(d->ht[0].used*2)`. -/
def IsSmallestPow2Geq (n m : Nat) : Prop :=
  IsPow2 m ∧ n ≤ m ∧ ∀ m', IsPow2 m' → n ≤ m' → m ≤ m'

/-- A concrete well-formed dictionary (hash = identity): four entries in a
table of size four, no rehash in progress. -/
def d4 : Dict :=
  { ht0 := { table := [[(0, 0)], [(1, 1)], [(2, 2)], [(3, 3)]], used := 4 },
    ht1 := dictReset, rehashidx := -1, iterators := 0 }

theorem d4_wf : WF (fun n => n) d4 := by
  refine ⟨⟨show (4 : Nat) = 4 by rfl, ?_⟩, ⟨rfl, ?_⟩, Or.inl ⟨rfl, rfl, rfl⟩,
    by decide⟩
  · intro i e he
    have hlt : i < 4 := by
      by_contra hge
      push_neg at hge
      have hnil : tableBucket d4.ht0.table i = [] := by
        unfold tableBucket d4
        rw [List.getD_eq_getElem?_getD, List.getElem?_eq_none (by simpa using hge)]
        rfl
      rw [hnil] at he
      exact absurd he (List.not_mem_nil e)
    interval_cases i <;> simp [d4, tableBucket] at he <;> subst he <;> decide
  · intro i e he
    simp [d4, dictReset, tableBucket] at he

theorem dictNextPowerEight : dictNextPower 8 = 8 := by
  obtain ⟨_, _, h8, hmin⟩ := dictNextPower_spec 8 (by decide)
  exact le_antisymm (hmin 8 ⟨3, rfl⟩ (by decide) le_rfl) h8

/-- `dictExpand` in the successful grow case (table already allocated). -/
theorem dictExpand_grow (d : Dict) (size : Nat)
    (hnr : ¬dictIsRehashing d) (hused : d.ht0.used ≤ size)
    (hne : dictNextPower size ≠ d.ht0.size) (hnil : d.ht0.table ≠ []) :
    dictExpand d size =
      (DICT_OK, { d with
        ht1 := { table := List.replicate (dictNextPower size) [], used := 0 },
        rehashidx := 0 }) := by
  unfold dictExpand
  rw [if_neg (by push_neg; exact ⟨hnr, by omega⟩), if_neg hne, if_neg hnil]

/-- C3 counterexample: on the well-formed state `d4` (`used = 4`, `size = 4`,
not rehashing) the insert-time grow policy `_dictExpandIfNeeded` allocates a
new table of size 8 (`_dictNextPower(used*2)`), whereas the claimed size —
the smallest power of two ≥ max(used, 4) = 4 — is 4, not 8. -/
theorem expand_size_counterexample :
    WF (fun n => n) d4 ∧ ¬dictIsRehashing d4 ∧
    d4.ht0.used = 4 ∧ d4.ht0.size = 4 ∧
    (dictExpandIfNeeded true d4).2.ht1.size = 8 ∧
    ¬IsSmallestPow2Geq (max d4.ht0.used DICT_HT_INITIAL_SIZE) 8 := by
  have hg := dictExpand_grow d4 (d4.ht0.used * 2) (by decide) (by decide)
    (by rw [show d4.ht0.used * 2 = 8 from rfl, dictNextPowerEight]; decide)
    (by decide)
  have hexp : (dictExpandIfNeeded true d4).2.ht1.size = 8 := by
    unfold dictExpandIfNeeded
    rw [if_neg (by decide), if_neg (by decide), if_pos (by decide), hg]
    show (List.replicate (dictNextPower (d4.ht0.used * 2)) ([] : Bucket)).length = 8
    rw [show d4.ht0.used * 2 = 8 from rfl, dictNextPowerEight,
      List.length_replicate]
  refine ⟨d4_wf, by decide, rfl, rfl, hexp, ?_⟩
  rintro ⟨-, -, hmin⟩
  have h4 := hmin 4 ⟨2, rfl⟩ (by decide)
  omega

/-- C3 (amended): for every well-formed state with no rehash in progress and
an allocated table (`size ≠ 0`, `used ≤ 2^61` keeping the target below
`LONG_MAX`), an insert triggers a grow exactly when `used ≥ size` and either
resizing is globally enabled or `used/size > 5`; the newly allocated target
table's size equals the smallest power of two greater than or equal to
`max(used * 2, 4)` — twice the current `used` count, not `max(used, 4)` as
claimed.  When the trigger is off, the dictionary is returned unchanged. -/
theorem dictExpandIfNeeded_grow_spec (hash : Key → Nat) (canResize : Bool)
    (d : Dict) (hwf : WF hash d) (hnr : ¬dictIsRehashing d)
    (hsz : d.ht0.size ≠ 0) (hbound : d.ht0.used ≤ 2 ^ 61) :
    (d.ht0.used ≥ d.ht0.size ∧
        (canResize ∨ d.ht0.used / d.ht0.size > dict_force_resize_ratio) →
      (dictExpandIfNeeded canResize d).1 = DICT_OK ∧
      (dictExpandIfNeeded canResize d).2.ht0 = d.ht0 ∧
      (dictExpandIfNeeded canResize d).2.rehashidx = 0 ∧
      (dictExpandIfNeeded canResize d).2.ht1.used = 0 ∧
      IsSmallestPow2Geq (max (d.ht0.used * 2) DICT_HT_INITIAL_SIZE)
        (dictExpandIfNeeded canResize d).2.ht1.size) ∧
    (¬(d.ht0.used ≥ d.ht0.size ∧
        (canResize ∨ d.ht0.used / d.ht0.size > dict_force_resize_ratio)) →
      dictExpandIfNeeded canResize d = (DICT_OK, d)) := by
  constructor
  · intro hcond
    have hu1 : 1 ≤ d.ht0.used := by
      have hs1 : 1 ≤ d.ht0.size := Nat.one_le_iff_ne_zero.mpr hsz
      have := hcond.1
      omega
    have hlt : d.ht0.used * 2 < LONG_MAX := by
      have h1 : d.ht0.used * 2 ≤ 2 ^ 61 * 2 := Nat.mul_le_mul_right 2 hbound
      have h2 : (2 : Nat) ^ 61 * 2 < 2 ^ 63 - 1 := by norm_num
      unfold LONG_MAX
      omega
    obtain ⟨hp, h4, hge, hmin⟩ := dictNextPower_spec (d.ht0.used * 2) hlt
    have hne : dictNextPower (d.ht0.used * 2) ≠ d.ht0.size := by
      have := hcond.1
      omega
    have hnil : d.ht0.table ≠ [] := by
      intro hc
      unfold Dictht.size at hsz
      rw [hc] at hsz
      simp at hsz
    have hg := dictExpand_grow d (d.ht0.used * 2) hnr (by omega) hne hnil
    unfold dictExpandIfNeeded
    rw [if_neg hnr, if_neg hsz, if_pos hcond, hg]
    refine ⟨rfl, rfl, rfl, rfl, ?_⟩
    show IsSmallestPow2Geq _
      (List.replicate (dictNextPower (d.ht0.used * 2)) ([] : Bucket)).length
    rw [List.length_replicate]
    exact ⟨hp, Nat.max_le.mpr ⟨hge, h4⟩, fun m' hm' hge' =>
      hmin m' hm' (le_trans (le_max_right _ _) hge')
        (le_trans (le_max_left _ _) hge')⟩
  · intro hncond
    unfold dictExpandIfNeeded
    rw [if_neg hnr, if_neg hsz, if_neg hncond]

theorem dictExpandIfNeeded_grow_spec_witness :
    (dictExpandIfNeeded true d4).1 = DICT_OK ∧
    (dictExpandIfNeeded true d4).2.rehashidx = 0 ∧
    IsSmallestPow2Geq (max (d4.ht0.used * 2) DICT_HT_INITIAL_SIZE)
      (dictExpandIfNeeded true d4).2.ht1.size := by
  have h := dictExpandIfNeeded_grow_spec (fun n => n) true d4 d4_wf
    (by decide) (by decide) (by decide)
  have hc := h.1 (by decide)
  exact ⟨hc.1, hc.2.2.1, hc.2.2.2.2⟩

/-- C9: `dictExpand` is atomic in its failure cases — called while a rehash
is in progress, or with a requested size below the current `used` count, or
with a target size whose power-of-two rounding equals the current table
size, it returns `DICT_ERR` and leaves the dictionary completely unchanged.
In particular (first disjunct) `dictExpand` refuses to start a second rehash
while one is in progress. -/
theorem dictExpand_failure_atomic (d : Dict) (size : Nat)
    (h : dictIsRehashing d ∨ d.ht0.used > size ∨
      dictNextPower size = d.ht0.size) :
    dictExpand d size = (DICT_ERR, d) := by
  unfold dictExpand
  by_cases h1 : dictIsRehashing d ∨ d.ht0.used > size
  · rw [if_pos h1]
  · rw [if_neg h1]
    push_neg at h1
    have h3 : dictNextPower size = d.ht0.size := by
      rcases h with h | h | h
      · exact absurd h h1.1
      · exact absurd h (not_lt.mpr h1.2)
      · exact h
    rw [if_pos h3]

/-- A concrete dictionary in the middle of a rehash. -/
def dexr : Dict :=
  { ht0 := { table := [[(0, 0)], []], used := 1 },
    ht1 := { table := [[], [], [], []], used := 0 },
    rehashidx := 0, iterators := 0 }

theorem dictExpand_failure_atomic_witness :
    dictIsRehashing dexr ∧ dictExpand dexr 16 = (DICT_ERR, dexr) :=
  ⟨by decide, dictExpand_failure_atomic dexr 16 (Or.inl (by decide))⟩

end RedisDict

/-! ## Part II: the keyspace with expiries (db.c, t_string.c)

The per-database state of db.c: the main `dict` and the `expires` dict,
modelled as association lists with unique keys (the dict development above
established that the hash table refines exactly such a map).  Side effects
towards the rest of the server — DEL propagation to AOF/replicas, keyspace
notifications, `signalModifiedKey` towards watchers — are collected in an
event list. -/

namespace RedisDb

/-- Keys (sds strings in C). -/
abbrev K := Nat

/-- An `OBJ_STRING` value object: integer-encoded (`OBJ_ENCODING_INT`) or a
raw string. -/
inductive Robj where
  | intObj (n : Int)
  | strObj (s : String)
deriving DecidableEq, Repr

/-- `dictFind` on an association list. -/
def aFind {α : Type} : List (K × α) → K → Option α
  | [], _ => none
  | e :: rest, k => if e.1 = k then some e.2 else aFind rest k

/-- `dictDelete` on an association list. -/
def aRemove {α : Type} : List (K × α) → K → List (K × α)
  | [], _ => []
  | e :: rest, k => if e.1 = k then aRemove rest k else e :: aRemove rest k

/-- `dictSetVal` on the entry found for `k`. -/
def aSet {α : Type} : List (K × α) → K → α → List (K × α)
  | [], _, _ => []
  | e :: rest, k, v => if e.1 = k then (k, v) :: rest else e :: aSet rest k v

/-- `dictAddOrFind` followed by `dictSetSignedIntegerVal`. -/
def aUpsert {α : Type} (l : List (K × α)) (k : K) (v : α) : List (K × α) :=
  match aFind l k with
  | some _ => aSet l k v
  | none => l ++ [(k, v)]

/-- A `redisDb`: the keyspace and the expires dictionary (absolute unix time
in milliseconds). -/
structure Db where
  dict : List (K × Robj)
  expires : List (K × Int)
deriving DecidableEq, Repr

/-- The server context consulted by the expiry machinery. -/
structure Server where
  loading : Bool
  masterhost : Option String
deriving DecidableEq, Repr

/-- Side effects towards the rest of the server. -/
inductive Event where
  | propagateDel (k : K)
  | notify (cls : String) (ev : String) (k : K)
  | touch (k : K)
deriving DecidableEq, Repr

/-- `dbAdd` (db.c): insert a fresh key (the C code asserts it is absent). -/
def dbAdd (db : Db) (k : K) (v : Robj) : Db :=
  { db with dict := db.dict ++ [(k, v)] }

/-- `dbOverwrite` (db.c): replace the value of an existing key; the expire
time is not modified. -/
def dbOverwrite (db : Db) (k : K) (v : Robj) : Db :=
  { db with dict := aSet db.dict k v }

/-- `removeExpire` (db.c). -/
def removeExpire (db : Db) (k : K) : Db :=
  { db with expires := aRemove db.expires k }

/-- `setExpire` (db.c): `when` is the absolute unix time in ms. -/
def setExpire (db : Db) (k : K) (w : Int) : Db :=
  { db with expires := aUpsert db.expires k w }

/-- `getExpire` (db.c): `-1` when no expire is associated with the key. -/
def getExpire (db : Db) (k : K) : Int :=
  match aFind db.expires k with
  | none => -1
  | some w => w

/-- `dbSyncDelete` (db.c): drop the expire entry, then the key; the flag
tells whether the key was present. -/
def dbSyncDelete (db : Db) (k : K) : Bool × Db :=
  let db1 : Db := { db with expires := aRemove db.expires k }
  if aFind db1.dict k ≠ none then
    (true, { db1 with dict := aRemove db1.dict k })
  else (false, db1)

/-- `keyIsExpired` (db.c): `now` is `mstime()` (or the Lua snapshot when a
script is running — the choice of clock is the caller's).  Nothing expires
while loading from disk, and the comparison is strict: expired iff
`now > when`. -/
def keyIsExpired (srv : Server) (now : Int) (db : Db) (k : K) : Bool :=
  let w := getExpire db k
  if w < 0 then false
  else if srv.loading then false
  else decide (now > w)

/-- `expireIfNeeded` (db.c): on a replica (`masterhost ≠ NULL`) only report
the logical status without deleting; on a master propagate a DEL, notify
"expired" and synchronously delete (the lazy-free variant differs only in
how the memory is reclaimed). -/
def expireIfNeeded (srv : Server) (now : Int) (db : Db) (k : K) :
    Bool × Db × List Event :=
  if ¬keyIsExpired srv now db k then (false, db, [])
  else if srv.masterhost ≠ none then (true, db, [])
  else
    let r := dbSyncDelete db k
    (r.1, r.2, [Event.propagateDel k, Event.notify "g" "expired" k])

/-- `lookupKey` (db.c): a plain dict lookup (the LRU/LFU access-time update
does not affect the stored value). -/
def lookupKey (db : Db) (k : K) : Option Robj := aFind db.dict k

/-- `lookupKeyReadWithFlags` (db.c).  `roCaller` models the
`server.current_client != server.master && CMD_READONLY` test used on
replicas. -/
def lookupKeyReadWithFlags (srv : Server) (now : Int) (roCaller : Bool)
    (db : Db) (k : K) : Option Robj × Db × List Event :=
  let r := expireIfNeeded srv now db k
  if r.1 ∧ srv.masterhost = none then (none, r.2.1, r.2.2)
  else if r.1 ∧ roCaller then (none, r.2.1, r.2.2)
  else (lookupKey r.2.1 k, r.2.1, r.2.2)

/-- `lookupKeyRead` (db.c): `lookupKeyReadWithFlags` with `LOOKUP_NONE`. -/
def lookupKeyRead (srv : Server) (now : Int) (roCaller : Bool) (db : Db)
    (k : K) : Option Robj × Db × List Event :=
  lookupKeyReadWithFlags srv now roCaller db k

/-- `lookupKeyWrite` (db.c). -/
def lookupKeyWrite (srv : Server) (now : Int) (db : Db) (k : K) :
    Option Robj × Db × List Event :=
  let r := expireIfNeeded srv now db k
  (lookupKey r.2.1 k, r.2.1, r.2.2)

/-- `signalModifiedKey` (db.c): touch the watchers of `k`. -/
def signalModifiedKey (k : K) : List Event := [Event.touch k]

/-- `setKey` (db.c): add or overwrite, drop any expire, signal watchers. -/
def setKey (srv : Server) (now : Int) (db : Db) (k : K) (v : Robj) :
    Db × List Event :=
  let r := lookupKeyWrite srv now db k
  let db1 := match r.1 with
    | none => dbAdd r.2.1 k v
    | some _ => dbOverwrite r.2.1 k v
  (removeExpire db1 k, r.2.2 ++ signalModifiedKey k)

/-! ### SET (t_string.c) -/

/-- The replies `setGenericCommand` can produce. -/
inductive SetReply where
  | ok
  | abortReply
  | errInvalidExpire
deriving DecidableEq, Repr

/-- The tail of `setGenericCommand` after the NX/XX gate: `setKey`, the dirty
counter (not modelled), `setExpire(mstime()+milliseconds)`, and the
keyspace notifications. -/
def setFinish (srv : Server) (now : Int) (db : Db) (k : K) (v : Robj)
    (ms : Option Int) (evs : List Event) : SetReply × Db × List Event :=
  let s := setKey srv now db k v
  let db1 := match ms with
    | none => s.1
    | some m => setExpire s.1 k (now + m)
  (SetReply.ok, db1,
    evs ++ s.2 ++ [Event.notify "string" "set" k] ++
      (match ms with
       | some _ => [Event.notify "generic" "expire" k]
       | none => []))

/-- The NX/XX gate of `setGenericCommand` (its `lookupKeyWrite` may itself
expire the key, hence the threaded state). -/
def setGenericBody (srv : Server) (now : Int) (nx xx : Bool) (db : Db)
    (k : K) (v : Robj) (ms : Option Int) : SetReply × Db × List Event :=
  if nx ∨ xx then
    let r := lookupKeyWrite srv now db k
    if (nx ∧ r.1 ≠ none) ∨ (xx ∧ r.1 = none) then
      (SetReply.abortReply, r.2.1, r.2.2)
    else setFinish srv now r.2.1 k v ms r.2.2
  else setFinish srv now db k v ms []

/-- `setGenericCommand` (t_string.c): `expire` is the integer the EX/PX
argument parsed to (`getLongLongFromObjectOrReply`); the `milliseconds <= 0`
check precedes every state change. -/
def setGenericCommand (srv : Server) (now : Int) (nx xx : Bool) (db : Db)
    (k : K) (v : Robj) (expire : Option Int) (unitSeconds : Bool) :
    SetReply × Db × List Event :=
  match expire with
  | none => setGenericBody srv now nx xx db k v none
  | some e =>
    if e ≤ 0 then (SetReply.errInvalidExpire, db, [])
    else
      let ms := if unitSeconds then e * 1000 else e
      setGenericBody srv now nx xx db k v (some ms)

/-! ### INCR/DECR (t_string.c) -/

def LLONG_MAX : Int := 2 ^ 63 - 1
def LLONG_MIN : Int := -(2 ^ 63)

/-- Modelled from the spec: `getLongLongFromObjectOrReply` (object.c, which
is not among this repository's sources) yields 0 for a NULL object and the
stored integer for an integer-encoded string object; a raw string that does
not parse is an error (`none`). -/
def getLongLongFromObject : Option Robj → Option Int
  | none => some 0
  | some (Robj.intObj n) => some n
  | some (Robj.strObj _) => none

/-- The replies of `incrDecrCommand`. -/
inductive IncrReply where
  | value (n : Int)
  | parseErr
  | overflowErr
deriving DecidableEq, Repr

/-- `incrDecrCommand` (t_string.c).  The shared-object / in-place branches
both leave the key bound to a string object holding exactly the new value,
modelled uniformly as `Robj.intObj`. -/
def incrDecrCommand (srv : Server) (now : Int) (db : Db) (k : K)
    (incr : Int) : IncrReply × Db × List Event :=
  let r := lookupKeyWrite srv now db k
  match getLongLongFromObject r.1 with
  | none => (IncrReply.parseErr, r.2.1, r.2.2)
  | some v =>
    if (incr < 0 ∧ v < 0 ∧ incr < LLONG_MIN - v) ∨
        (incr > 0 ∧ v > 0 ∧ incr > LLONG_MAX - v) then
      (IncrReply.overflowErr, r.2.1, r.2.2)
    else
      let v2 := v + incr
      let db2 := match r.1 with
        | some _ => dbOverwrite r.2.1 k (Robj.intObj v2)
        | none => dbAdd r.2.1 k (Robj.intObj v2)
      (IncrReply.value v2, db2,
        r.2.2 ++ [Event.touch k, Event.notify "string" "incrby" k])

/-! ### Theorems -/

theorem aFind_aRemove_self {α : Type} (l : List (K × α)) (k : K) :
    aFind (aRemove l k) k = none := by
  induction l with
  | nil => rfl
  | cons e rest ih =>
    unfold aRemove
    by_cases he : e.1 = k
    · rw [if_pos he]
      exact ih
    · rw [if_neg he]
      unfold aFind
      rw [if_neg he]
      exact ih

theorem aFind_append_self {α : Type} (l : List (K × α)) (k : K) (v : α)
    (h : aFind l k = none) : aFind (l ++ [(k, v)]) k = some v := by
  induction l with
  | nil => simp [aFind]
  | cons e rest ih =>
    unfold aFind at h
    rw [List.cons_append]
    unfold aFind
    by_cases he : e.1 = k
    · rw [if_pos he] at h
      exact Option.noConfusion h
    · rw [if_neg he] at h ⊢
      exact ih h

/-- C8: a SET carrying an EX/PX option whose expire argument parses to an
integer ≤ 0 replies "invalid expire time" and leaves the database completely
unchanged — no key created or overwritten, no expiry set or cleared — and
emits no events, so in particular no watcher is signalled. -/
theorem set_invalid_expire (srv : Server) (now : Int) (nx xx : Bool)
    (db : Db) (k : K) (v : Robj) (e : Int) (unitSeconds : Bool)
    (he : e ≤ 0) :
    setGenericCommand srv now nx xx db k v (some e) unitSeconds =
      (SetReply.errInvalidExpire, db, []) := by
  unfold setGenericCommand
  show (if e ≤ 0 then (SetReply.errInvalidExpire, db, ([] : List Event))
      else setGenericBody srv now nx xx db k v
        (some (if unitSeconds then e * 1000 else e))) =
    (SetReply.errInvalidExpire, db, [])
  rw [if_pos he]

theorem set_invalid_expire_witness :
    (-5 : Int) ≤ 0 ∧
    setGenericCommand ⟨false, none⟩ 1000 false false ⟨[], []⟩ 1
        (Robj.intObj 7) (some (-5)) true =
      (SetReply.errInvalidExpire, ⟨[], []⟩, []) :=
  ⟨by decide,
    set_invalid_expire ⟨false, none⟩ 1000 false false ⟨[], []⟩ 1
      (Robj.intObj 7) (-5) true (by decide)⟩

theorem lookupKeyWrite_absent (srv : Server) (now : Int) (db : Db) (k : K)
    (hd : aFind db.dict k = none) (he : aFind db.expires k = none) :
    lookupKeyWrite srv now db k = (none, db, []) := by
  have hkie : keyIsExpired srv now db k = false := by
    unfold keyIsExpired getExpire
    rw [he]
    rfl
  unfold lookupKeyWrite expireIfNeeded
  rw [if_pos (by rw [hkie]; exact Bool.false_ne_true)]
  show (aFind db.dict k, db, ([] : List Event)) = (none, db, [])
  rw [hd]

/-- C10: on a database where key `k` is absent (no value, no expiry),
INCR/DECR/INCRBY/DECRBY by `n` behaves as if `k` held the integer 0: it
creates `k` bound to an integer string object holding exactly `n` and
replies with `n`; starting from 0 the LLONG_MIN/LLONG_MAX overflow check
cannot fire. -/
theorem incr_on_absent (srv : Server) (now : Int) (db : Db) (k : K)
    (n : Int) (hd : aFind db.dict k = none)
    (he : aFind db.expires k = none) :
    (incrDecrCommand srv now db k n).1 = IncrReply.value n ∧
    aFind (incrDecrCommand srv now db k n).2.1.dict k =
      some (Robj.intObj n) := by
  have hlkw := lookupKeyWrite_absent srv now db k hd he
  unfold incrDecrCommand
  rw [hlkw]
  show (match getLongLongFromObject none with
    | none => (IncrReply.parseErr, db, ([] : List Event))
    | some v =>
      if (n < 0 ∧ v < 0 ∧ n < LLONG_MIN - v) ∨
          (n > 0 ∧ v > 0 ∧ n > LLONG_MAX - v) then
        (IncrReply.overflowErr, db, [])
      else
        (IncrReply.value (v + n),
          match (none : Option Robj) with
          | some _ => dbOverwrite db k (Robj.intObj (v + n))
          | none => dbAdd db k (Robj.intObj (v + n)),
          [Event.touch k, Event.notify "string" "incrby" k])).1
      = IncrReply.value n ∧
    aFind (match getLongLongFromObject none with
    | none => (IncrReply.parseErr, db, ([] : List Event))
    | some v =>
      if (n < 0 ∧ v < 0 ∧ n < LLONG_MIN - v) ∨
          (n > 0 ∧ v > 0 ∧ n > LLONG_MAX - v) then
        (IncrReply.overflowErr, db, [])
      else
        (IncrReply.value (v + n),
          match (none : Option Robj) with
          | some _ => dbOverwrite db k (Robj.intObj (v + n))
          | none => dbAdd db k (Robj.intObj (v + n)),
          [Event.touch k, Event.notify "string" "incrby" k])).2.1.dict k
      = some (Robj.intObj n)
  show (if (n < 0 ∧ (0 : Int) < 0 ∧ n < LLONG_MIN - 0) ∨
          (n > 0 ∧ (0 : Int) > 0 ∧ n > LLONG_MAX - 0) then
        (IncrReply.overflowErr, db, ([] : List Event))
      else
        (IncrReply.value (0 + n), dbAdd db k (Robj.intObj (0 + n)),
          [Event.touch k, Event.notify "string" "incrby" k])).1
      = IncrReply.value n ∧
    aFind (if (n < 0 ∧ (0 : Int) < 0 ∧ n < LLONG_MIN - 0) ∨
          (n > 0 ∧ (0 : Int) > 0 ∧ n > LLONG_MAX - 0) then
        (IncrReply.overflowErr, db, ([] : List Event))
      else
        (IncrReply.value (0 + n), dbAdd db k (Robj.intObj (0 + n)),
          [Event.touch k, Event.notify "string" "incrby" k])).2.1.dict k
      = some (Robj.intObj n)
  have hno : ¬((n < 0 ∧ (0 : Int) < 0 ∧ n < LLONG_MIN - 0) ∨
      (n > 0 ∧ (0 : Int) > 0 ∧ n > LLONG_MAX - 0)) := by
    rintro (⟨-, h0, -⟩ | ⟨-, h0, -⟩) <;> exact absurd h0 (by decide)
  rw [if_neg hno]
  refine ⟨by rw [zero_add], ?_⟩
  show aFind (db.dict ++ [(k, Robj.intObj (0 + n))]) k = some (Robj.intObj n)
  rw [zero_add]
  exact aFind_append_self db.dict k _ hd

theorem keyIsExpired_eval (srv : Server) (now : Int) (db : Db) (k : K)
    (t : Int) (hexp : aFind db.expires k = some t) (ht : 0 ≤ t)
    (hload : srv.loading = false) :
    keyIsExpired srv now db k = decide (now > t) := by
  have hg : getExpire db k = t := by
    unfold getExpire
    rw [hexp]
  unfold keyIsExpired
  show (if getExpire db k < 0 then false
    else if srv.loading then false else decide (now > getExpire db k))
      = decide (now > t)
  rw [hg, hload, if_neg (show ¬t < 0 by omega)]
  rfl

theorem dbSyncDelete_present (db : Db) (k : K) (v : Robj)
    (hval : aFind db.dict k = some v) :
    dbSyncDelete db k =
      (true, { dict := aRemove db.dict k,
               expires := aRemove db.expires k }) := by
  unfold dbSyncDelete
  show (if aFind db.dict k ≠ none then
      (true, ({ dict := aRemove db.dict k,
                expires := aRemove db.expires k } : Db))
    else (false, { db with expires := aRemove db.expires k })) = _
  rw [if_pos (show aFind db.dict k ≠ none by
    rw [hval]; exact Option.some_ne_none v)]

theorem expireIfNeeded_expired (srv : Server) (now : Int) (db : Db) (k : K)
    (v : Robj) (t : Int) (hmaster : srv.masterhost = none)
    (hload : srv.loading = false) (hval : aFind db.dict k = some v)
    (hexp : aFind db.expires k = some t) (ht : 0 ≤ t) (hnow : now > t) :
    expireIfNeeded srv now db k =
      (true, { dict := aRemove db.dict k, expires := aRemove db.expires k },
        [Event.propagateDel k, Event.notify "g" "expired" k]) := by
  have hkt : keyIsExpired srv now db k = true := by
    rw [keyIsExpired_eval srv now db k t hexp ht hload]
    exact decide_eq_true hnow
  unfold expireIfNeeded
  rw [if_neg (by rw [hkt]; simp), if_neg (by rw [hmaster]; simp),
    dbSyncDelete_present db k v hval]

/-- C4: on a primary (`masterhost = NULL`, not loading) holding key `k` with
value `v` and absolute expiry `t ≥ 0`: a `lookupKeyRead` at wall-clock time
`now` strictly greater than `t` returns not-found, deletes the key from both
the keyspace and the expires dict, and propagates the synthetic DEL and the
"expired" notification; at any `now ≤ t` it returns the stored value and
leaves the database untouched. -/
theorem lookupKeyRead_expiry (srv : Server) (now : Int) (ro : Bool)
    (db : Db) (k : K) (v : Robj) (t : Int)
    (hmaster : srv.masterhost = none) (hload : srv.loading = false)
    (hval : aFind db.dict k = some v) (hexp : aFind db.expires k = some t)
    (ht : 0 ≤ t) :
    (now > t →
      (lookupKeyRead srv now ro db k).1 = none ∧
      aFind (lookupKeyRead srv now ro db k).2.1.dict k = none ∧
      aFind (lookupKeyRead srv now ro db k).2.1.expires k = none ∧
      (lookupKeyRead srv now ro db k).2.2 =
        [Event.propagateDel k, Event.notify "g" "expired" k]) ∧
    (now ≤ t →
      lookupKeyRead srv now ro db k = (some v, db, [])) := by
  constructor
  · intro hnow
    have hein := expireIfNeeded_expired srv now db k v t hmaster hload hval
      hexp ht hnow
    have heq : lookupKeyRead srv now ro db k =
        (none, { dict := aRemove db.dict k, expires := aRemove db.expires k },
          [Event.propagateDel k, Event.notify "g" "expired" k]) := by
      unfold lookupKeyRead lookupKeyReadWithFlags
      simp only [hein]
      rw [if_pos ⟨trivial, hmaster⟩]
    rw [heq]
    exact ⟨rfl, aFind_aRemove_self db.dict k,
      aFind_aRemove_self db.expires k, rfl⟩
  · intro hnow
    have hkf : keyIsExpired srv now db k = false := by
      rw [keyIsExpired_eval srv now db k t hexp ht hload]
      exact decide_eq_false (not_lt.mpr hnow)
    have hein0 : expireIfNeeded srv now db k = (false, db, []) := by
      unfold expireIfNeeded
      rw [if_pos (by rw [hkf]; exact Bool.false_ne_true)]
    unfold lookupKeyRead lookupKeyReadWithFlags
    simp only [hein0]
    rw [if_neg (fun h => Bool.false_ne_true h.1),
      if_neg (fun h => Bool.false_ne_true h.1)]
    unfold lookupKey
    rw [hval]

theorem lookupKeyRead_expiry_witness :
    ((101 : Int) > 100 ∧
      (lookupKeyRead ⟨false, none⟩ 101 false
        ⟨[(3, Robj.intObj 9)], [(3, 100)]⟩ 3).1 = none) ∧
    ((100 : Int) ≤ 100 ∧
      lookupKeyRead ⟨false, none⟩ 100 false
          ⟨[(3, Robj.intObj 9)], [(3, 100)]⟩ 3 =
        (some (Robj.intObj 9), ⟨[(3, Robj.intObj 9)], [(3, 100)]⟩, [])) := by
  have h1 := lookupKeyRead_expiry ⟨false, none⟩ 101 false
    ⟨[(3, Robj.intObj 9)], [(3, 100)]⟩ 3 (Robj.intObj 9) 100 rfl rfl
    (by decide) (by decide) (by decide)
  have h2 := lookupKeyRead_expiry ⟨false, none⟩ 100 false
    ⟨[(3, Robj.intObj 9)], [(3, 100)]⟩ 3 (Robj.intObj 9) 100 rfl rfl
    (by decide) (by decide) (by decide)
  exact ⟨⟨by decide, (h1.1 (by decide)).1⟩, ⟨by decide, h2.2 (by decide)⟩⟩

theorem incr_on_absent_witness :
    aFind (Db.dict ⟨[], []⟩) 7 = none ∧
    (incrDecrCommand ⟨false, none⟩ 0 ⟨[], []⟩ 7 5).1 = IncrReply.value 5 := by
  have h := incr_on_absent ⟨false, none⟩ 0 ⟨[], []⟩ 7 5 rfl rfl
  exact ⟨rfl, h.1⟩

end RedisDb

/-! ## Part III: MULTI/EXEC and WATCH (multi.c)

The client-local transaction state: the `CLIENT_MULTI`, `CLIENT_DIRTY_CAS`
and `CLIENT_DIRTY_EXEC` flag bits, the queued commands (`mstate`), and the
client's watched-key list.  The per-db `watched_keys` dict maps a key to
exactly the clients whose watched list holds it (watchForKey/unwatchAllKeys
keep the two structures in sync), so `touchWatchedKey` is modelled as
flagging every client watching the key. -/

namespace Multi

abbrev K := Nat

/-- A queued command (opaque). -/
abbrev Cmd := Nat

/-- The transaction-relevant part of a `client`. -/
structure MClient where
  flagMulti : Bool
  flagDirtyCas : Bool
  flagDirtyExec : Bool
  mstate : List Cmd
  watched : List K
deriving DecidableEq, Repr

/-- `initClientMultiState` (multi.c): empty the command queue. -/
def initClientMultiState (c : MClient) : MClient := { c with mstate := [] }

/-- `unwatchAllKeys` (multi.c). -/
def unwatchAllKeys (c : MClient) : MClient := { c with watched := [] }

/-- `discardTransaction` (multi.c): drop the queue, clear
`CLIENT_MULTI|CLIENT_DIRTY_CAS|CLIENT_DIRTY_EXEC`, unwatch everything. -/
def discardTransaction (c : MClient) : MClient :=
  unwatchAllKeys
    { initClientMultiState c with
      flagMulti := false, flagDirtyCas := false, flagDirtyExec := false }

/-- `touchWatchedKey` (multi.c): set `CLIENT_DIRTY_CAS` on every client in
`db->watched_keys[k]` — exactly those whose watched list holds `k`. -/
def touchWatchedKey (k : K) (cs : List MClient) : List MClient :=
  cs.map (fun c => if k ∈ c.watched then { c with flagDirtyCas := true } else c)

/-- The replies of `execCommand`. -/
inductive ExecReply where
  | errWithoutMulti
  | execAbortErr
  | nullArray
  | roReplicaErr
  | results (n : Nat)
deriving DecidableEq, Repr

/-- `execCommand` (multi.c), client-local effects: the reply, the queued
commands actually executed (the `call` loop), and the updated client.
`roReplicaWrite` models the read-only-replica-with-write-commands test. -/
def execCommand (roReplicaWrite : Bool) (c : MClient) :
    ExecReply × List Cmd × MClient :=
  if ¬c.flagMulti then (ExecReply.errWithoutMulti, [], c)
  else if c.flagDirtyCas ∨ c.flagDirtyExec then
    ((if c.flagDirtyExec then ExecReply.execAbortErr else ExecReply.nullArray),
      [], discardTransaction c)
  else if roReplicaWrite then (ExecReply.roReplicaErr, [], discardTransaction c)
  else
    (ExecReply.results c.mstate.length, c.mstate,
      discardTransaction (unwatchAllKeys c))

/-- C5: a client `c` in the MULTI (queuing) state with a clear DIRTY_EXEC
flag that watches key `k`: when `k` is touched (`touchWatchedKey` over the
clients watching it) after the WATCH and before the EXEC, the touched
client's EXEC replies with the null-array result, executes none of the
queued commands, discards the queue, and leaves the queuing state (the
watch list is cleared as well). -/
theorem exec_abort_on_touched (ro : Bool) (cs : List MClient) (c : MClient)
    (k : K) (hc : c ∈ cs) (hmulti : c.flagMulti = true)
    (hde : c.flagDirtyExec = false) (hw : k ∈ c.watched) :
    ∃ c2 ∈ touchWatchedKey k cs,
      c2.flagDirtyCas = true ∧
      (execCommand ro c2).1 = ExecReply.nullArray ∧
      (execCommand ro c2).2.1 = [] ∧
      (execCommand ro c2).2.2.mstate = [] ∧
      (execCommand ro c2).2.2.flagMulti = false ∧
      (execCommand ro c2).2.2.watched = [] := by
  refine ⟨{ c with flagDirtyCas := true }, ?_, rfl, ?_, ?_, ?_, ?_, ?_⟩
  · unfold touchWatchedKey
    refine List.mem_map.mpr ⟨c, hc, ?_⟩
    beta_reduce
    rw [if_pos hw]
  all_goals
    unfold execCommand
    rw [if_neg (show ¬¬({ c with flagDirtyCas := true } : MClient).flagMulti by
        rw [show ({ c with flagDirtyCas := true } : MClient).flagMulti =
          c.flagMulti from rfl, hmulti]; simp),
      if_pos (Or.inl (show (true : Bool) = true from rfl)),
      show ({ c with flagDirtyCas := true } : MClient).flagDirtyExec =
        c.flagDirtyExec from rfl, hde]
  all_goals rfl

theorem exec_abort_on_touched_witness :
    ∃ c2 ∈ touchWatchedKey 5 [(⟨true, false, false, [1, 2], [5]⟩ : MClient)],
      c2.flagDirtyCas = true ∧
      (execCommand false c2).1 = ExecReply.nullArray ∧
      (execCommand false c2).2.1 = [] ∧
      (execCommand false c2).2.2.mstate = [] ∧
      (execCommand false c2).2.2.flagMulti = false ∧
      (execCommand false c2).2.2.watched = [] :=
  exec_abort_on_touched false [⟨true, false, false, [1, 2], [5]⟩]
    ⟨true, false, false, [1, 2], [5]⟩ 5 (by decide) rfl rfl (by decide)

end Multi

/-! ## Part IV: publish/subscribe (pubsub.c)

`server.pubsub_channels` maps a channel to the list of subscribed clients;
`server.pubsub_patterns` is a list of (client, pattern) subscriptions.  The
glob matcher `stringmatchlen` lives in util.c, outside this repository's
sources, so the matcher is an abstract parameter `mtch`. -/

namespace Pubsub

abbrev Client := Nat
abbrev Chan := Nat
abbrev Pat := Nat

/-- The pub/sub state of the server. -/
structure PubsubState where
  channels : List (Chan × List Client)
  patterns : List (Client × Pat)
deriving DecidableEq, Repr

/-- One message handed to a client: `addReplyPubsubMessage` for an exact
channel subscription, `addReplyPubsubPatMessage` (carrying the pattern) for
a pattern subscription. -/
inductive Delivery where
  | message (c : Client) (ch : Chan)
  | pmessage (c : Client) (p : Pat) (ch : Chan)
deriving DecidableEq, Repr

/-- `dictFind` on the channels dict. -/
def cFind : List (Chan × List Client) → Chan → Option (List Client)
  | [], _ => none
  | e :: rest, ch => if e.1 = ch then some e.2 else cFind rest ch

/-- The first loop of `pubsubPublishMessage`: deliver to every client
subscribed to the exact channel, counting receivers. -/
def chanLoop (ch : Chan) : List Client → Nat × List Delivery
  | [] => (0, [])
  | c :: rest =>
    let r := chanLoop ch rest
    (r.1 + 1, Delivery.message c ch :: r.2)

/-- The second loop of `pubsubPublishMessage`: walk `pubsub_patterns` and
deliver to each entry whose pattern matches the channel. -/
def patLoop (mtch : Pat → Chan → Bool) (ch : Chan) :
    List (Client × Pat) → Nat × List Delivery
  | [] => (0, [])
  | e :: rest =>
    let r := patLoop mtch ch rest
    if mtch e.2 ch then (r.1 + 1, Delivery.pmessage e.1 e.2 ch :: r.2)
    else r

/-- `pubsubPublishMessage` (pubsub.c): exact-channel fanout, then pattern
fanout; returns the receiver count and (in order) the deliveries made. -/
def pubsubPublishMessage (mtch : Pat → Chan → Bool) (st : PubsubState)
    (ch : Chan) : Nat × List Delivery :=
  let r1 := match cFind st.channels ch with
    | some l => chanLoop ch l
    | none => (0, [])
  let r2 := patLoop mtch ch st.patterns
  (r1.1 + r2.1, r1.2 ++ r2.2)

theorem chanLoop_spec (ch : Chan) (l : List Client) :
    chanLoop ch l = (l.length, l.map (fun c => Delivery.message c ch)) := by
  induction l with
  | nil => rfl
  | cons c rest ih =>
    unfold chanLoop
    rw [ih]
    rfl

theorem patLoop_spec (mtch : Pat → Chan → Bool) (ch : Chan)
    (l : List (Client × Pat)) :
    patLoop mtch ch l =
      ((l.filter (fun e => mtch e.2 ch)).length,
        (l.filter (fun e => mtch e.2 ch)).map
          (fun e => Delivery.pmessage e.1 e.2 ch)) := by
  induction l with
  | nil => rfl
  | cons e rest ih =>
    unfold patLoop
    rw [ih]
    by_cases hm : mtch e.2 ch
    · rw [if_pos hm]
      simp [List.filter_cons, hm]
    · rw [if_neg hm]
      simp [List.filter_cons, hm]

/-- C6: publish delivers the message once to each subscriber of the exact
channel (in subscription-list order), then once per (subscriber, pattern)
entry of the pattern list whose pattern matches the channel — a subscriber
matching via several patterns receives one message per matching pattern —
and the returned count equals the total number of deliveries made. -/
theorem publish_fanout (mtch : Pat → Chan → Bool) (st : PubsubState)
    (ch : Chan) :
    (pubsubPublishMessage mtch st ch).2 =
      ((cFind st.channels ch).getD []).map (fun c => Delivery.message c ch) ++
        (st.patterns.filter (fun e => mtch e.2 ch)).map
          (fun e => Delivery.pmessage e.1 e.2 ch) ∧
    (pubsubPublishMessage mtch st ch).1 =
      (pubsubPublishMessage mtch st ch).2.length := by
  unfold pubsubPublishMessage
  rcases hc : cFind st.channels ch with _ | l
  · simp only [hc, patLoop_spec, Option.getD_none, List.map_nil,
      List.nil_append]
    constructor
    · trivial
    · simp [List.length_map]
  · simp only [hc, chanLoop_spec, patLoop_spec, Option.getD_some]
    constructor
    · trivial
    · simp [List.length_append, List.length_map]

end Pubsub

/-! ## Part V: the event loop's timers (ae.c)

`processTimeEvents`, over the linked list of `aeTimeEvent`s.  The registered
`timeProc` callbacks are modelled by a function `proc` from the event id to
the returned retval (`AE_NOMORE` or the next interval); `time(NULL)` and
`aeGetTime` are the parameters `now`, `now_sec`, `now_ms` (the clock is read
afresh per iteration in C; one pass is modelled at a frozen clock). -/

namespace Ae

def AE_DELETED_EVENT_ID : Int := -1
def AE_NOMORE : Int := -1

/-- A time event node. -/
structure aeTimeEvent where
  id : Int
  when_sec : Int
  when_ms : Int
deriving DecidableEq, Repr

/-- The timer-relevant part of `aeEventLoop`. -/
structure aeEventLoop where
  timeEventHead : List aeTimeEvent
  timeEventNextId : Int
  lastTime : Int
deriving DecidableEq, Repr

/-- `aeAddMillisecondsToNow` (ae.c). -/
def aeAddMillisecondsToNow (now_sec now_ms milliseconds : Int) : Int × Int :=
  let when_sec := now_sec + milliseconds / 1000
  let when_ms := now_ms + milliseconds % 1000
  if when_ms ≥ 1000 then (when_sec + 1, when_ms - 1000)
  else (when_sec, when_ms)

/-- The clock-skew branch of `processTimeEvents`: zero every timer's
`when_sec`. -/
def clockSkewReset (l : List aeTimeEvent) : List aeTimeEvent :=
  l.map (fun te => { te with when_sec := 0 })

/-- The dispatch loop of `processTimeEvents`: drop deleted nodes, skip ids
beyond `maxId`, fire due timers (strict on seconds, ≥ on milliseconds) and
either reschedule (`retval ≠ AE_NOMORE`) or mark them deleted. -/
def processLoop (proc : Int → Int) (maxId : Int) (now_sec now_ms : Int) :
    List aeTimeEvent → Nat × List aeTimeEvent
  | [] => (0, [])
  | te :: rest =>
    if te.id = AE_DELETED_EVENT_ID then
      processLoop proc maxId now_sec now_ms rest
    else if te.id > maxId then
      let r := processLoop proc maxId now_sec now_ms rest
      (r.1, te :: r.2)
    else if now_sec > te.when_sec ∨
        (now_sec = te.when_sec ∧ now_ms ≥ te.when_ms) then
      let retval := proc te.id
      let te2 :=
        if retval ≠ AE_NOMORE then
          { te with when_sec := (aeAddMillisecondsToNow now_sec now_ms retval).1,
                    when_ms := (aeAddMillisecondsToNow now_sec now_ms retval).2 }
        else { te with id := AE_DELETED_EVENT_ID }
      let r := processLoop proc maxId now_sec now_ms rest
      (r.1 + 1, te2 :: r.2)
    else
      let r := processLoop proc maxId now_sec now_ms rest
      (r.1, te :: r.2)

/-- `processTimeEvents` (ae.c): detect clock skew (`now` behind `lastTime`),
then dispatch with `maxId = timeEventNextId - 1`. -/
def processTimeEvents (proc : Int → Int) (now now_sec now_ms : Int)
    (el : aeEventLoop) : Nat × aeEventLoop :=
  let head := if now < el.lastTime then clockSkewReset el.timeEventHead
    else el.timeEventHead
  let maxId := el.timeEventNextId - 1
  let r := processLoop proc maxId now_sec now_ms head
  (r.1, { el with timeEventHead := r.2, lastTime := now })

theorem clockSkewReset_zeroes (l : List aeTimeEvent) :
    ∀ te ∈ clockSkewReset l, te.when_sec = 0 := by
  intro te hte
  obtain ⟨te0, _, rfl⟩ := List.mem_map.mp hte
  rfl

theorem processLoop_all_due (proc : Int → Int) (maxId : Int)
    (now_sec now_ms : Int) (l : List aeTimeEvent)
    (hz : ∀ te ∈ l, te.when_sec = 0) (hpos : 0 < now_sec) :
    (processLoop proc maxId now_sec now_ms l).1 =
      (l.filter (fun te =>
        decide (te.id ≠ AE_DELETED_EVENT_ID ∧ te.id ≤ maxId))).length := by
  induction l with
  | nil => rfl
  | cons te rest ih =>
    have hzr : ∀ t ∈ rest, t.when_sec = 0 :=
      fun t ht => hz t (List.mem_cons_of_mem te ht)
    have hzh : te.when_sec = 0 := hz te (List.mem_cons_self te rest)
    unfold processLoop
    rw [List.filter_cons]
    by_cases hdel : te.id = AE_DELETED_EVENT_ID
    · rw [if_pos hdel, if_neg (by simp [hdel])]
      exact ih hzr
    · rw [if_neg hdel]
      by_cases hmax : te.id > maxId
      · rw [if_pos hmax, if_neg (by simp; omega)]
        exact ih hzr
      · rw [if_neg hmax,
          if_pos (Or.inl (show now_sec > te.when_sec by omega)),
          if_pos (by simp [hdel]; omega)]
        show (processLoop proc maxId now_sec now_ms rest).1 + 1 = _
        rw [List.length_cons, ih hzr]

/-- C7: if at the start of a timer-processing pass the wall-clock second
`now` is behind the recorded `lastTime`, then (1) the skew branch zeroes the
`when_sec` of every pending timer before dispatch, and (2) with the wall
clock past the epoch every pending timer is due at once: the pass processes
exactly the timers that are not deleted and have a valid id (`≤ maxId`) —
none is delayed to a later cycle. -/
theorem timer_clock_skew (proc : Int → Int) (now now_sec now_ms : Int)
    (el : aeEventLoop) (hskew : now < el.lastTime) (hpos : 0 < now_sec) :
    (∀ te ∈ clockSkewReset el.timeEventHead, te.when_sec = 0) ∧
    (processTimeEvents proc now now_sec now_ms el).1 =
      (el.timeEventHead.filter (fun te =>
        decide (te.id ≠ AE_DELETED_EVENT_ID ∧
          te.id ≤ el.timeEventNextId - 1))).length := by
  refine ⟨clockSkewReset_zeroes el.timeEventHead, ?_⟩
  unfold processTimeEvents
  simp only [if_pos hskew]
  rw [processLoop_all_due proc (el.timeEventNextId - 1) now_sec now_ms
    (clockSkewReset el.timeEventHead)
    (clockSkewReset_zeroes el.timeEventHead) hpos]
  unfold clockSkewReset
  rw [List.filter_map]
  simp only [List.length_map]
  rfl

theorem timer_clock_skew_witness :
    (50 : Int) < 100 ∧
    (processTimeEvents (fun _ => AE_NOMORE) 50 5 0
        ⟨[⟨0, 1000, 0⟩, ⟨-1, 0, 0⟩, ⟨7, 0, 0⟩], 2, 100⟩).1 =
      (([⟨0, 1000, 0⟩, ⟨-1, 0, 0⟩, ⟨7, 0, 0⟩] : List aeTimeEvent).filter
        (fun te => decide (te.id ≠ AE_DELETED_EVENT_ID ∧
          te.id ≤ (2 : Int) - 1))).length :=
  ⟨by decide,
    (timer_clock_skew (fun _ => AE_NOMORE) 50 5 0
      ⟨[⟨0, 1000, 0⟩, ⟨-1, 0, 0⟩, ⟨7, 0, 0⟩], 2, 100⟩
      (by decide) (by decide)).2⟩

end Ae
